import Mathlib

/-!
# Task-Scheduler: a lazy task registry (`src/lib/scheduler.h`)

Shallow embedding of `TaskId`, `ITask` / `TaskWrapper<R>`, `std::any`,
`TTaskScheduler` and `TTaskScheduler::FutureResult<T>`.

Modelling conventions.

* A C++ member function that mutates its object and may throw is a pure function
  returning a pair `(outcome, state afterwards)`; the outcome is an `Except Exn _`.
  The state component is the state the object is left in, also when the call throws.
* A user callable is opaque code with side effects.  It is embedded as the sequence
  of outcomes of its successive invocations, `func_ k` being what the `k`-th
  invocation (counting from `0`) returns or throws.  Each task carries a ghost
  counter `calls` of the invocations made so far: it plays the part of the
  side-effecting counter captured by the callable.  Such a callable does not read the
  scheduler it is stored in.  A callable that does, because it is bound to a
  `FutureResult` handle, is embedded in the section "Callables bound to a handle"
  (names ending in `H`); a callable that registers tasks while it runs is not
  embedded.
* Result types are codes `Ty` with carrier `Ty.El`; a code stands for the identity
  `typeid` compares.  `std::any` is a value together with the code of its type.
* `std::unordered_map` is an association list with first-match lookup.  Its iteration
  order is unspecified, so executions are closed under reordering of the list (`Run`).
* `int` arithmetic on the id counter wraps to 32 bits (`wrapInt32`); statements about
  ids returned by `add` assume that the counter stays within `int` range.
-/

namespace TaskScheduler

/-! ## Exceptions and values -/

/-- Exceptions that can leave the scheduler: `std::runtime_error` with its message,
`std::bad_any_cast`, and anything else a user callable throws. -/
inductive Exn where
  | runtime_error (what : String)
  | bad_any_cast
  | other (code : Nat)
deriving DecidableEq, Repr

/-- Codes of the result types a task can be registered with. -/
inductive Ty where
  | int
  | bool
  | string
  | pair (a b : Ty)
  | tuple3 (a b c : Ty)
deriving DecidableEq, Repr

/-- Carrier of a result type. -/
def Ty.El : Ty → Type
  | .int => Int
  | .bool => Bool
  | .string => String
  | .pair a b => a.El × b.El
  | .tuple3 a b c => a.El × b.El × c.El

/-- Value-initialisation `R{}`, the content of `result_` before the task has run. -/
def Ty.zero : (R : Ty) → R.El
  | .int => (0 : Int)
  | .bool => false
  | .string => ""
  | .pair a b => (a.zero, b.zero)
  | .tuple3 a b c => (a.zero, b.zero, c.zero)

/-- The type `std::any`: a value with the code of its dynamic type. -/
structure StdAny where
  ty : Ty
  val : ty.El

/-- The cast `std::any_cast<T>(a)`: the contained value when the contained type is `T`,
otherwise `std::bad_any_cast` is thrown. -/
def any_cast (T : Ty) (a : StdAny) : Except Exn T.El :=
  if h : a.ty = T then .ok (h ▸ a.val) else .error .bad_any_cast

/-! ## `TaskId` -/

/-- Class `TaskId`: wraps an `int`, `-1` by default. -/
structure TaskId where
  id_ : Int := -1
deriving DecidableEq, Repr

/-- Member `TaskId::getId`. -/
def TaskId.getId (t : TaskId) : Int := t.id_

/-! ## `TaskWrapper<R>` and `ITask` -/

/-- Class `TaskWrapper<R>`: the bound callable `func_`, the slot `result_`, the flag
`executed_`, and the ghost invocation counter `calls`. -/
structure TaskWrapper (R : Ty) where
  func_ : Nat → Except Exn R.El
  calls : Nat
  result_ : R.El
  executed_ : Bool

/-- Constructor of `TaskWrapper<R>`: binds `func` to `args` in a zero-argument
closure; `result_` is value-initialised and `executed_` is `false`.  Nothing is
invoked. -/
def TaskWrapper.new {A : Type} (R : Ty) (func : A → Nat → Except Exn R.El) (args : A) :
    TaskWrapper R :=
  { func_ := fun k => func args k, calls := 0, result_ := R.zero, executed_ := false }

/-- Member `TaskWrapper::execute`: when not yet executed, invoke `func_`, store its
value and set the flag; a throwing invocation leaves `result_` and `executed_` as they
were. -/
def TaskWrapper.execute {R : Ty} (t : TaskWrapper R) : Except Exn Unit × TaskWrapper R :=
  if !t.executed_ then
    match t.func_ t.calls with
    | .ok v => (.ok (), { t with calls := t.calls + 1, result_ := v, executed_ := true })
    | .error e => (.error e, { t with calls := t.calls + 1 })
  else (.ok (), t)

/-- Member `TaskWrapper::getResult`: execute when needed, then wrap `result_` in a
`std::any`. -/
def TaskWrapper.getResult {R : Ty} (t : TaskWrapper R) : Except Exn StdAny × TaskWrapper R :=
  if !t.executed_ then
    match t.execute with
    | (.ok _, t1) => (.ok ⟨R, t1.result_⟩, t1)
    | (.error e, t1) => (.error e, t1)
  else (.ok ⟨R, t.result_⟩, t)

/-- Member `TaskWrapper::isExecuted`. -/
def TaskWrapper.isExecuted {R : Ty} (t : TaskWrapper R) : Bool := t.executed_

/-- Interface `ITask`: a `TaskWrapper<R>` whose `R` is erased. -/
structure ITask where
  R : Ty
  w : TaskWrapper R

/-- Virtual dispatch of `ITask::execute`. -/
def ITask.execute (t : ITask) : Except Exn Unit × ITask :=
  (t.w.execute.1, ⟨t.R, t.w.execute.2⟩)

/-- Virtual dispatch of `ITask::getResult`. -/
def ITask.getResult (t : ITask) : Except Exn StdAny × ITask :=
  (t.w.getResult.1, ⟨t.R, t.w.getResult.2⟩)

/-- Virtual dispatch of `ITask::isExecuted`. -/
def ITask.isExecuted (t : ITask) : Bool := t.w.isExecuted

/-! ## The map `tasks` -/

/-- The container `std::unordered_map<TaskId, std::shared_ptr<ITask>>`. -/
abbrev TaskMap := List (TaskId × ITask)

/-- Lookup `tasks.find(id)`; `none` stands for `tasks.end()`. -/
def TaskMap.find : TaskMap → TaskId → Option ITask
  | [], _ => none
  | (k, t) :: rest, id => if k = id then some t else TaskMap.find rest id

/-- Assignment `tasks[id] = t`: the mapped task of an existing key is replaced, a new
key gets a new entry.  It is also how a mutation made through the pointer returned by
`getTask` is written back to the entry the pointer refers to. -/
def TaskMap.assign : TaskMap → TaskId → ITask → TaskMap
  | [], id, t => [(id, t)]
  | (k, t0) :: rest, id, t =>
    if k = id then (k, t) :: rest else (k, t0) :: TaskMap.assign rest id t

/-- The keys of the map, in iteration order. -/
def TaskMap.keys (m : TaskMap) : List TaskId := m.map Prod.fst

/-! ## `TTaskScheduler` -/

/-- Reduction of an integer to the range of a 32-bit two's complement `int`.  Signed
overflow of `nextId_++` is undefined behaviour in C++; it is embedded as the usual
wrap-around, and the statements about ids assume the counter stays within range. -/
def wrapInt32 (n : Int) : Int := (n + 2147483648) % 4294967296 - 2147483648

/-- The largest `int`. -/
def INT_MAX : Int := 2147483647

/-- Class `TTaskScheduler`: the map `tasks` and the counter `nextId_`. -/
structure TTaskScheduler where
  tasks : TaskMap
  nextId_ : Int

/-- Handle `TTaskScheduler::FutureResult<T>`: the id it is bound to.  The pointer
`scheduler_` refers to the registry that made the handle, the one the conversion is
applied to. -/
structure FutureResult (T : Ty) where
  id_ : TaskId

namespace TTaskScheduler

/-- Constructor `TTaskScheduler()`. -/
def new : TTaskScheduler := { tasks := [], nextId_ := 0 }

/-- Member `add(func, args...)`: `R` is the result type of `func(args...)`.  A
`TaskWrapper<R>` is made, the id is `nextId_++`, the task is stored under it. -/
def add {A : Type} (s : TTaskScheduler) (R : Ty) (func : A → Nat → Except Exn R.El)
    (args : A) : TaskId × TTaskScheduler :=
  let task : ITask := ⟨R, TaskWrapper.new R func args⟩
  let id : TaskId := ⟨s.nextId_⟩
  (id, { tasks := s.tasks.assign id task, nextId_ := wrapInt32 (s.nextId_ + 1) })

/-- Private member `getTask(id)`. -/
def getTask (s : TTaskScheduler) (id : TaskId) : Except Exn ITask :=
  match s.tasks.find id with
  | none => .error (.runtime_error "Task not found")
  | some t => .ok t

/-- Member `getFutureResult<T>(id)`: `return FutureResult<T>(id, this)`.  The body
has no lookup and no `throw`: the outcome is always a handle. -/
def getFutureResult (s : TTaskScheduler) (T : Ty) (id : TaskId) :
    Except Exn (FutureResult T) × TTaskScheduler :=
  (.ok ⟨id⟩, s)

/-- Member `getResult<T>(id)`: `any_cast<T>(getTask(id)->getResult())`. -/
def getResult (s : TTaskScheduler) (T : Ty) (id : TaskId) :
    Except Exn T.El × TTaskScheduler :=
  match s.getTask id with
  | .error e => (.error e, s)
  | .ok task =>
    let s1 : TTaskScheduler := { s with tasks := s.tasks.assign id task.getResult.2 }
    match task.getResult.1 with
    | .error e => (.error e, s1)
    | .ok a => (any_cast T a, s1)

/-- Member `isExecuted(id) const`. -/
def isExecuted (s : TTaskScheduler) (id : TaskId) : Except Exn Bool :=
  match s.tasks.find id with
  | none => .error (.runtime_error "Invalid task id")
  | some t => .ok t.isExecuted

/-- The loop of `executeAll` over the entries in iteration order; a throwing task
ends the loop and leaves the later entries untouched. -/
def executeAllLoop : TaskMap → Except Exn Unit × TaskMap
  | [] => (.ok (), [])
  | (id, task) :: rest =>
    if !task.isExecuted then
      match task.execute with
      | (.ok _, task1) => ((executeAllLoop rest).1, (id, task1) :: (executeAllLoop rest).2)
      | (.error e, task1) => (.error e, (id, task1) :: rest)
    else ((executeAllLoop rest).1, (id, task) :: (executeAllLoop rest).2)

/-- Member `executeAll()`. -/
def executeAll (s : TTaskScheduler) : Except Exn Unit × TTaskScheduler :=
  ((executeAllLoop s.tasks).1, { s with tasks := (executeAllLoop s.tasks).2 })

/-- Ghost observation: how often the callable stored under `id` has been invoked. -/
def callsOf (s : TTaskScheduler) (id : TaskId) : Option Nat :=
  (s.tasks.find id).map (fun t => t.w.calls)

end TTaskScheduler

/-- Conversion `FutureResult<T>::operator T()`: `scheduler_->getResult<T>(id_)`. -/
def FutureResult.operatorT {T : Ty} (h : FutureResult T) (s : TTaskScheduler) :
    Except Exn T.El × TTaskScheduler :=
  s.getResult T h.id_

/-! ## Sequences of calls -/

/-- One call on a registry.  `add` carries the result type and the callable already
bound to its arguments; `force T id` is the conversion of a `FutureResult<T>` bound to
`id`. -/
inductive Op where
  | add (R : Ty) (f : Nat → Except Exn R.El)
  | executeAll
  | getResult (T : Ty) (id : TaskId)
  | isExecuted (id : TaskId)
  | getFutureResult (T : Ty) (id : TaskId)
  | force (T : Ty) (id : TaskId)

/-- The state a call leaves the registry in; a thrown exception is caught by the
caller, who goes on with the registry as the call left it. -/
def applyOp (s : TTaskScheduler) : Op → TTaskScheduler
  | .add R f => (s.add R (fun (_ : Unit) => f) ()).2
  | .executeAll => s.executeAll.2
  | .getResult T id => (s.getResult T id).2
  | .isExecuted _ => s
  | .getFutureResult T id => (s.getFutureResult T id).2
  | .force T id => ((⟨id⟩ : FutureResult T).operatorT s).2

/-- The id a call returns when it is an `add`. -/
def returnedId (s : TTaskScheduler) : Op → Option TaskId
  | .add R f => some (s.add R (fun (_ : Unit) => f) ()).1
  | _ => none

/-- Run a sequence of calls, the map being iterated in list order. -/
def runOps (s : TTaskScheduler) : List Op → TTaskScheduler
  | [] => s
  | op :: ops => runOps (applyOp s op) ops

/-- The ids returned by the `add` calls of a sequence, in call order. -/
def mintedIds (s : TTaskScheduler) : List Op → List TaskId
  | [] => []
  | op :: ops => (returnedId s op).toList ++ mintedIds (applyOp s op) ops

/-- Number of `add` calls in a sequence. -/
def countAdds : List Op → Nat
  | [] => 0
  | .add _ _ :: ops => countAdds ops + 1
  | _ :: ops => countAdds ops

/-- Two registry states that differ only in the iteration order of the map. -/
def Reorder (s s1 : TTaskScheduler) : Prop :=
  s1.tasks.Perm s.tasks ∧ s1.nextId_ = s.nextId_

/-- Executions of a sequence of calls in which the map may take any iteration order
after each call. -/
inductive Run : TTaskScheduler → List Op → TTaskScheduler → Prop where
  | done (s : TTaskScheduler) : Run s [] s
  | step {s s1 s2 : TTaskScheduler} {op : Op} {ops : List Op} :
      Reorder (applyOp s op) s1 → Run s1 ops s2 → Run s (op :: ops) s2

/-- A call that can execute the task stored under `id`: `executeAll` and a typed read
or handle conversion addressed to `id`. -/
def Op.mayReach (id : TaskId) : Op → Bool
  | .executeAll => true
  | .getResult _ id1 => decide (id1 = id)
  | .force _ id1 => decide (id1 = id)
  | _ => false

/-- The state of a task whose callable `f` returns `v` at its first invocation and
that has been invoked at most once: either untouched since registration, or executed
once with `v` cached. -/
def FreshOrDone (R : Ty) (f : Nat → Except Exn R.El) (v : R.El) (t : ITask) : Prop :=
  ∃ w : TaskWrapper R, t = ⟨R, w⟩ ∧ w.func_ = f ∧
    ((w.executed_ = false ∧ w.calls = 0) ∨
      (w.executed_ = true ∧ w.calls = 1 ∧ w.result_ = v))

/-- The state of a task whose callable `f` has been invoked exactly once and whose
value `v` is cached. -/
def DoneOnce (R : Ty) (f : Nat → Except Exn R.El) (v : R.El) (t : ITask) : Prop :=
  ∃ w : TaskWrapper R, t = ⟨R, w⟩ ∧ w.func_ = f ∧
    w.executed_ = true ∧ w.calls = 1 ∧ w.result_ = v

/-- A callable as in the tests: `[]() { return n; }`. -/
def returnsInt (n : Int) : Nat → Except Exn Ty.int.El := fun _ => .ok n

/-- A callable as in the test `TaskThrowsException`: it throws
`std::runtime_error("oops")` at every invocation. -/
def throwsOops : Nat → Except Exn Ty.int.El := fun _ => .error (.runtime_error "oops")

/-- A new registry after `add([]() { return n; })`. -/
def registryOf (n : Int) : TTaskScheduler :=
  (TTaskScheduler.new.add .int (fun (_ : Unit) => returnsInt n) ()).2

/-- A new registry after `add` of the throwing callable. -/
def registryOops : TTaskScheduler :=
  (TTaskScheduler.new.add .int (fun (_ : Unit) => throwsOops) ()).2

/-- The registry of the test `MultipleTasksIndependent`: `add` of `return 10`, then
`add` of `return 20`. -/
def registry10and20 : TTaskScheduler :=
  ((registryOf 10).add .int (fun (_ : Unit) => returnsInt 20) ()).2

/-- A registry with three pending tasks: `return 10`, the throwing callable, and
`return 20`, registered in this order. -/
def registry10OopsAnd20 : TTaskScheduler :=
  runOps TTaskScheduler.new
    [Op.add .int (returnsInt 10), Op.add .int throwsOops, Op.add .int (returnsInt 20)]

/-- One `add` call: the result type and the callable bound to its arguments. -/
structure AddCall where
  R : Ty
  func : Nat → Except Exn R.El

/-- The call `add` as an element of a sequence of calls. -/
def AddCall.toOp (a : AddCall) : Op := .add a.R a.func

/-- A call that is a pure query: `isExecuted` and `getFutureResult`. -/
def Op.isReadOnly : Op → Bool
  | .isExecuted _ => true
  | .getFutureResult _ _ => true
  | _ => false

/-! ## Callables bound to a handle

The closure `func_` built at lines 48-51 keeps the arguments given to `add`.  When one
of them is a `FutureResult<T>` of the same registry, `std::invoke` converts it through
`operator T()`, that is `scheduler_->getResult<T>(id_)`, each time the closure is
invoked: such a callable reads the registry it is stored in.  The definitions of this
section embed the classes once more with such closures; their names end in `H`.

A member function now works on the whole registry, because invoking a closure can
change other tasks: it takes the registry and returns the registry afterwards.  A call
that never returns, as for a task bound to a handle of itself, is `none`; the number
`fuel` bounds the depth of nested conversions.
-/

/-- The closure `func_` of lines 48-51.  `plain f` is bound to no handle: `f k` is the
outcome of its `k`-th invocation.  `onHandle T h f` is bound to the handle `h`, which
is converted to `T` at every invocation before the callable runs: `f x k` is the
outcome of the `k`-th invocation when the conversion gave `x`. -/
inductive ClosureH (R : Ty) where
  | plain (f : Nat → Except Exn R.El)
  | onHandle (T : Ty) (h : FutureResult T) (f : T.El → Nat → Except Exn R.El)

/-- Class `TaskWrapper<R>` with such a closure. -/
structure TaskWrapperH (R : Ty) where
  func_ : ClosureH R
  calls : Nat
  result_ : R.El
  executed_ : Bool

/-- Constructor of `TaskWrapper<R>`: nothing is invoked. -/
def TaskWrapperH.new (R : Ty) (c : ClosureH R) : TaskWrapperH R :=
  { func_ := c, calls := 0, result_ := R.zero, executed_ := false }

/-- Interface `ITask`. -/
structure ITaskH where
  R : Ty
  w : TaskWrapperH R

/-- Virtual dispatch of `ITask::isExecuted`. -/
def ITaskH.isExecuted (t : ITaskH) : Bool := t.w.executed_

/-- The container `tasks`. -/
abbrev TaskMapH := List (TaskId × ITaskH)

/-- Lookup `tasks.find(id)`. -/
def TaskMapH.find : TaskMapH → TaskId → Option ITaskH
  | [], _ => none
  | (k, t) :: rest, id => if k = id then some t else TaskMapH.find rest id

/-- Assignment `tasks[id] = t`, and the write through a pointer to the entry of `id`. -/
def TaskMapH.assign : TaskMapH → TaskId → ITaskH → TaskMapH
  | [], id, t => [(id, t)]
  | (k, t0) :: rest, id, t =>
    if k = id then (k, t) :: rest else (k, t0) :: TaskMapH.assign rest id t

/-- The keys of the map, in iteration order. -/
def TaskMapH.keys (m : TaskMapH) : List TaskId := m.map Prod.fst

/-- Class `TTaskScheduler`. -/
structure TTaskSchedulerH where
  tasks : TaskMapH
  nextId_ : Int

/-- What converting a handle does: `scheduler_->getResult<T>(id_)` on the registry. -/
abbrev ConvH :=
  (T : Ty) → TaskId → TTaskSchedulerH → Option (Except Exn T.El × TTaskSchedulerH)

/-- Invocation `func_()`, the `k`-th one: `std::invoke(f, args...)`.  A bound handle is
converted first; when the conversion throws, the callable does not run. -/
def ClosureH.invoke {R : Ty} (conv : ConvH) (c : ClosureH R) (k : Nat) (s : TTaskSchedulerH) :
    Option (Except Exn R.El × TTaskSchedulerH) :=
  match c with
  | .plain f => some (f k, s)
  | .onHandle T h f =>
    match conv T h.id_ s with
    | none => none
    | some (.error e, s1) => some (.error e, s1)
    | some (.ok x, s1) => some (f x k, s1)

/-- Member `TaskWrapper::execute` of the task stored under `id`: when not yet
executed, invoke `func_`, store its value and set the flag.  The result holds the task
and the registry afterwards.  The invocation is counted when it begins.  A nested
conversion that returns has not reached the task `id` itself (that would start the same
invocation again, without end), so the fields are written to the task as it was. -/
def TaskWrapperH.execute {R : Ty} (conv : ConvH) (id : TaskId) (w : TaskWrapperH R)
    (s : TTaskSchedulerH) : Option (Except Exn Unit × TaskWrapperH R × TTaskSchedulerH) :=
  if !w.executed_ then
    match w.func_.invoke conv w.calls
        { s with tasks := s.tasks.assign id ⟨R, { w with calls := w.calls + 1 }⟩ } with
    | none => none
    | some (.ok v, s1) =>
      some (.ok (), { w with calls := w.calls + 1, result_ := v, executed_ := true },
        { s1 with
          tasks := s1.tasks.assign id
            ⟨R, { w with calls := w.calls + 1, result_ := v, executed_ := true }⟩ })
    | some (.error e, s1) => some (.error e, { w with calls := w.calls + 1 }, s1)
  else some (.ok (), w, s)

/-- Member `TaskWrapper::getResult` of the task stored under `id`. -/
def TaskWrapperH.getResult {R : Ty} (conv : ConvH) (id : TaskId) (w : TaskWrapperH R)
    (s : TTaskSchedulerH) : Option (Except Exn StdAny × TTaskSchedulerH) :=
  if !w.executed_ then
    match w.execute conv id s with
    | none => none
    | some (.ok _, w1, s1) => some (.ok ⟨R, w1.result_⟩, s1)
    | some (.error e, _, s1) => some (.error e, s1)
  else some (.ok ⟨R, w.result_⟩, s)

namespace TTaskSchedulerH

/-- Constructor `TTaskScheduler()`. -/
def new : TTaskSchedulerH := { tasks := [], nextId_ := 0 }

/-- Member `add(func, args...)`, the closure standing for `func` bound to `args`. -/
def add (s : TTaskSchedulerH) (R : Ty) (c : ClosureH R) : TaskId × TTaskSchedulerH :=
  let task : ITaskH := ⟨R, TaskWrapperH.new R c⟩
  let id : TaskId := ⟨s.nextId_⟩
  (id, { tasks := s.tasks.assign id task, nextId_ := wrapInt32 (s.nextId_ + 1) })

/-- Member `getFutureResult<T>(id)`. -/
def getFutureResult (s : TTaskSchedulerH) (T : Ty) (id : TaskId) :
    Except Exn (FutureResult T) × TTaskSchedulerH :=
  (.ok ⟨id⟩, s)

/-- Member `getResult<T>(id)`: `any_cast<T>(getTask(id)->getResult())`, a bound handle
being converted by `getResult` again, one level deeper. -/
def getResult : Nat → TTaskSchedulerH → (T : Ty) → TaskId →
    Option (Except Exn T.El × TTaskSchedulerH)
  | 0, _, _, _ => none
  | fuel + 1, s, T, id =>
    match s.tasks.find id with
    | none => some (.error (.runtime_error "Task not found"), s)
    | some task =>
      match task.w.getResult (fun T1 a s1 => getResult fuel s1 T1 a) id s with
      | none => none
      | some (.error e, s1) => some (.error e, s1)
      | some (.ok a, s1) => some (any_cast T a, s1)

/-- Member `isExecuted(id) const`. -/
def isExecuted (s : TTaskSchedulerH) (id : TaskId) : Except Exn Bool :=
  match s.tasks.find id with
  | none => .error (.runtime_error "Invalid task id")
  | some t => .ok t.isExecuted

/-- The loop of `executeAll` over the keys in iteration order; each entry is read as
it is when the loop reaches it. -/
def executeAllLoop (conv : ConvH) : List TaskId → TTaskSchedulerH →
    Option (Except Exn Unit × TTaskSchedulerH)
  | [], s => some (.ok (), s)
  | id :: rest, s =>
    match s.tasks.find id with
    | none => executeAllLoop conv rest s
    | some task =>
      if !task.isExecuted then
        match task.w.execute conv id s with
        | none => none
        | some (.ok _, _, s1) => executeAllLoop conv rest s1
        | some (.error e, _, s1) => some (.error e, s1)
      else executeAllLoop conv rest s

/-- Member `executeAll()`. -/
def executeAll (fuel : Nat) (s : TTaskSchedulerH) : Option (Except Exn Unit × TTaskSchedulerH) :=
  executeAllLoop (fun T1 a s1 => getResult fuel s1 T1 a) s.tasks.keys s

/-- Ghost observation: how often the callable stored under `id` has been invoked. -/
def callsOf (s : TTaskSchedulerH) (id : TaskId) : Option Nat :=
  (s.tasks.find id).map (fun t => t.w.calls)

end TTaskSchedulerH

/-- A task of the first embedding, as a task whose closure is bound to no handle. -/
def ITask.toH (t : ITask) : ITaskH :=
  ⟨t.R, { func_ := .plain t.w.func_, calls := t.w.calls, result_ := t.w.result_,
          executed_ := t.w.executed_ }⟩

/-- A registry of the first embedding, as a registry none of whose closures is bound
to a handle. -/
def TTaskScheduler.toH (s : TTaskScheduler) : TTaskSchedulerH :=
  { tasks := s.tasks.map (fun e => (e.1, e.2.toH)), nextId_ := s.nextId_ }

theorem find_assign_same (m : TaskMap) (id : TaskId) (t : ITask) :
    (m.assign id t).find id = some t := by
  induction m with
  | nil => simp [TaskMap.assign, TaskMap.find]
  | cons a rest ih =>
    obtain ⟨k, t0⟩ := a
    by_cases h : k = id
    · simp [TaskMap.assign, TaskMap.find, h]
    · simp [TaskMap.assign, TaskMap.find, h, ih]

theorem find_assign_ne (m : TaskMap) (id id1 : TaskId) (t : ITask) (hne : id1 ≠ id) :
    (m.assign id t).find id1 = m.find id1 := by
  induction m with
  | nil =>
    have h : ¬ id = id1 := fun h => hne h.symm
    simp [TaskMap.assign, TaskMap.find, h]
  | cons a rest ih =>
    obtain ⟨k, t0⟩ := a
    by_cases h : k = id
    · subst h
      have h1 : ¬ k = id1 := fun h => hne h.symm
      simp [TaskMap.assign, TaskMap.find, h1]
    · by_cases h1 : k = id1
      · subst h1
        simp [TaskMap.assign, TaskMap.find, h]
      · simp [TaskMap.assign, TaskMap.find, h, h1, ih]

theorem assign_of_find (m : TaskMap) (id : TaskId) (t : ITask) (h : m.find id = some t) :
    m.assign id t = m := by
  induction m with
  | nil => simp [TaskMap.find] at h
  | cons a rest ih =>
    obtain ⟨k, t0⟩ := a
    by_cases hk : k = id
    · simp [TaskMap.find, hk] at h
      simp [TaskMap.assign, hk, h]
    · simp [TaskMap.find, hk] at h
      simp [TaskMap.assign, hk, ih h]

theorem find_eq_none_iff (m : TaskMap) (id : TaskId) :
    m.find id = none ↔ id ∉ m.keys := by
  induction m with
  | nil => simp [TaskMap.find, TaskMap.keys]
  | cons a rest ih =>
    obtain ⟨k, t0⟩ := a
    by_cases hk : k = id
    · simp [TaskMap.find, TaskMap.keys, hk]
    · have hk1 : ¬ id = k := fun h => hk h.symm
      simp only [TaskMap.find, hk, if_false, ih]
      simp [TaskMap.keys, hk1]

theorem keys_assign_of_mem (m : TaskMap) (id : TaskId) (t : ITask) (h : id ∈ m.keys) :
    (m.assign id t).keys = m.keys := by
  induction m with
  | nil => simp [TaskMap.keys] at h
  | cons a rest ih =>
    obtain ⟨k, t0⟩ := a
    by_cases hk : k = id
    · simp [TaskMap.assign, TaskMap.keys, hk]
    · have hk1 : ¬ id = k := fun h => hk h.symm
      have h1 : id ∈ TaskMap.keys rest := by
        simpa [TaskMap.keys, hk1] using h
      have := ih h1
      simp only [TaskMap.keys] at this
      simp [TaskMap.assign, TaskMap.keys, hk, this]

theorem keys_assign_of_not_mem (m : TaskMap) (id : TaskId) (t : ITask) (h : id ∉ m.keys) :
    (m.assign id t).keys = m.keys ++ [id] := by
  induction m with
  | nil => simp [TaskMap.keys, TaskMap.assign]
  | cons a rest ih =>
    obtain ⟨k, t0⟩ := a
    have hk : ¬ k = id := by
      intro hk
      apply h
      simp [TaskMap.keys, hk]
    have h1 : id ∉ TaskMap.keys rest := by
      intro h1
      apply h
      simp only [TaskMap.keys] at h1
      simp [TaskMap.keys, h1]
    have := ih h1
    simp only [TaskMap.keys] at this
    simp [TaskMap.assign, TaskMap.keys, hk, this]

theorem nodup_keys_assign (m : TaskMap) (id : TaskId) (t : ITask) (h : m.keys.Nodup) :
    (m.assign id t).keys.Nodup := by
  by_cases hm : id ∈ m.keys
  · rw [keys_assign_of_mem m id t hm]
    exact h
  · rw [keys_assign_of_not_mem m id t hm]
    exact List.Nodup.append h (List.nodup_singleton id) (by simpa using hm)

theorem find_eq_some_iff_mem (m : TaskMap) (id : TaskId) (t : ITask) (h : m.keys.Nodup) :
    m.find id = some t ↔ (id, t) ∈ m := by
  induction m with
  | nil => simp [TaskMap.find]
  | cons a rest ih =>
    obtain ⟨k, t0⟩ := a
    have hn : k ∉ TaskMap.keys rest ∧ (TaskMap.keys rest).Nodup := by
      simpa [TaskMap.keys] using h
    by_cases hk : k = id
    · subst hk
      have hnot : (k, t) ∉ rest := by
        intro hmem
        apply hn.1
        simp only [TaskMap.keys, List.mem_map]
        exact ⟨(k, t), hmem, rfl⟩
      simp only [TaskMap.find, if_true, List.mem_cons, Option.some.injEq, Prod.mk.injEq,
        true_and]
      constructor
      · intro h1
        exact Or.inl h1.symm
      · rintro (h1 | h1)
        · exact h1.symm
        · exact absurd h1 hnot
    · have hk1 : ¬ id = k := fun h => hk h.symm
      simp only [TaskMap.find, hk, if_false, ih hn.2, List.mem_cons, Prod.mk.injEq, hk1,
        false_and, false_or]

theorem find_perm (m m1 : TaskMap) (id : TaskId) (h : m.keys.Nodup) (hp : m1.Perm m) :
    m1.find id = m.find id := by
  have h1 : m1.keys.Nodup := ((hp.map Prod.fst).nodup_iff).2 h
  apply Option.ext
  intro t
  simp only [Option.mem_def]
  rw [find_eq_some_iff_mem m1 id t h1, find_eq_some_iff_mem m id t h]
  exact hp.mem_iff

/-! ## Basic facts about a single task -/

theorem wrapper_execute_done {R : Ty} (t : TaskWrapper R) (h : t.executed_ = true) :
    t.execute = (.ok (), t) := by
  simp [TaskWrapper.execute, h]

theorem wrapper_execute_ok {R : Ty} (t : TaskWrapper R) (v : R.El)
    (h : t.executed_ = false) (hv : t.func_ t.calls = .ok v) :
    t.execute = (.ok (), { t with calls := t.calls + 1, result_ := v, executed_ := true }) := by
  simp [TaskWrapper.execute, h, hv]

theorem wrapper_execute_error {R : Ty} (t : TaskWrapper R) (e : Exn)
    (h : t.executed_ = false) (hv : t.func_ t.calls = .error e) :
    t.execute = (.error e, { t with calls := t.calls + 1 }) := by
  simp [TaskWrapper.execute, h, hv]

theorem wrapper_getResult_done {R : Ty} (t : TaskWrapper R) (h : t.executed_ = true) :
    t.getResult = (.ok ⟨R, t.result_⟩, t) := by
  simp [TaskWrapper.getResult, h]

theorem wrapper_getResult_ok {R : Ty} (t : TaskWrapper R) (v : R.El)
    (h : t.executed_ = false) (hv : t.func_ t.calls = .ok v) :
    t.getResult =
      (.ok ⟨R, v⟩, { t with calls := t.calls + 1, result_ := v, executed_ := true }) := by
  simp [TaskWrapper.getResult, h, wrapper_execute_ok t v h hv]

theorem wrapper_getResult_error {R : Ty} (t : TaskWrapper R) (e : Exn)
    (h : t.executed_ = false) (hv : t.func_ t.calls = .error e) :
    t.getResult = (.error e, { t with calls := t.calls + 1 }) := by
  simp [TaskWrapper.getResult, h, wrapper_execute_error t e h hv]

theorem wrapper_getResult_snd {R : Ty} (t : TaskWrapper R) :
    t.getResult.2 = t.execute.2 := by
  cases h : t.executed_ with
  | true => rw [wrapper_getResult_done t h, wrapper_execute_done t h]
  | false =>
    cases hv : t.func_ t.calls with
    | ok v => rw [wrapper_getResult_ok t v h hv, wrapper_execute_ok t v h hv]
    | error e => rw [wrapper_getResult_error t e h hv, wrapper_execute_error t e h hv]

theorem task_getResult_snd (t : ITask) : t.getResult.2 = t.execute.2 := by
  simp [ITask.getResult, ITask.execute, wrapper_getResult_snd]

theorem task_execute_done (t : ITask) (h : t.isExecuted = true) : t.execute = (.ok (), t) := by
  obtain ⟨R, w⟩ := t
  simp only [ITask.isExecuted, TaskWrapper.isExecuted] at h
  simp [ITask.execute, wrapper_execute_done w h]

theorem any_cast_same (R : Ty) (v : R.El) : any_cast R ⟨R, v⟩ = .ok v := by
  simp [any_cast]

theorem any_cast_ne (T R : Ty) (v : R.El) (h : T ≠ R) :
    any_cast T ⟨R, v⟩ = .error .bad_any_cast := by
  have h1 : ¬ R = T := fun h2 => h h2.symm
  simp [any_cast, h1]

theorem freshOrDone_execute (R : Ty) (f : Nat → Except Exn R.El) (v : R.El) (hf : f 0 = .ok v)
    (t : ITask) (h : FreshOrDone R f v t) : FreshOrDone R f v t.execute.2 := by
  obtain ⟨w, rfl, hfun, hst⟩ := h
  rcases hst with ⟨he, hc⟩ | ⟨he, hc, hr⟩
  · have hv : w.func_ w.calls = .ok v := by rw [hfun, hc, hf]
    refine ⟨w.execute.2, rfl, ?_, Or.inr ?_⟩
    · rw [wrapper_execute_ok w v he hv]
      exact hfun
    · rw [wrapper_execute_ok w v he hv]
      simp [hc]
  · refine ⟨w.execute.2, rfl, ?_, Or.inr ?_⟩
    · rw [wrapper_execute_done w he]
      exact hfun
    · rw [wrapper_execute_done w he]
      exact ⟨he, hc, hr⟩

/-! ## Basic facts about the registry operations -/

theorem getResult_unknown (s : TTaskScheduler) (T : Ty) (id : TaskId)
    (h : s.tasks.find id = none) :
    s.getResult T id = (.error (.runtime_error "Task not found"), s) := by
  simp [TTaskScheduler.getResult, TTaskScheduler.getTask, h]

theorem getResult_known (s : TTaskScheduler) (T : Ty) (id : TaskId) (t : ITask)
    (h : s.tasks.find id = some t) :
    s.getResult T id =
      ((match t.getResult.1 with
        | .error e => .error e
        | .ok a => any_cast T a),
       { s with tasks := s.tasks.assign id t.execute.2 }) := by
  simp only [TTaskScheduler.getResult, TTaskScheduler.getTask, h, task_getResult_snd]
  cases t.getResult.1 <;> rfl

theorem getResult_nextId (s : TTaskScheduler) (T : Ty) (id : TaskId) :
    (s.getResult T id).2.nextId_ = s.nextId_ := by
  cases h : s.tasks.find id with
  | none => rw [getResult_unknown s T id h]
  | some t => rw [getResult_known s T id t h]

theorem getResult_tasks_known (s : TTaskScheduler) (T : Ty) (id : TaskId) (t : ITask)
    (h : s.tasks.find id = some t) :
    (s.getResult T id).2.tasks = s.tasks.assign id t.execute.2 := by
  rw [getResult_known s T id t h]

theorem getResult_find_same (s : TTaskScheduler) (T : Ty) (id : TaskId) :
    (s.getResult T id).2.tasks.find id = (s.tasks.find id).map (fun t => t.execute.2) := by
  cases h : s.tasks.find id with
  | none => rw [getResult_unknown s T id h]; simp [h]
  | some t => rw [getResult_tasks_known s T id t h, find_assign_same]; rfl

theorem getResult_find_ne (s : TTaskScheduler) (T : Ty) (id id1 : TaskId) (hne : id1 ≠ id) :
    (s.getResult T id).2.tasks.find id1 = s.tasks.find id1 := by
  cases h : s.tasks.find id with
  | none => rw [getResult_unknown s T id h]
  | some t => rw [getResult_tasks_known s T id t h, find_assign_ne _ _ _ _ hne]

theorem getResult_keys (s : TTaskScheduler) (T : Ty) (id : TaskId) :
    (s.getResult T id).2.tasks.keys = s.tasks.keys := by
  cases h : s.tasks.find id with
  | none => rw [getResult_unknown s T id h]
  | some t =>
    rw [getResult_tasks_known s T id t h]
    apply keys_assign_of_mem
    by_contra hc
    rw [(find_eq_none_iff s.tasks id).2 hc] at h
    cases h

theorem executeAllLoop_keys (m : TaskMap) :
    (TTaskScheduler.executeAllLoop m).2.keys = m.keys := by
  induction m with
  | nil => rfl
  | cons a rest ih =>
    obtain ⟨k, t⟩ := a
    simp only [TaskMap.keys] at ih
    cases hx : t.isExecuted with
    | true => simp [TTaskScheduler.executeAllLoop, hx, TaskMap.keys, ih]
    | false =>
      cases hr : t.execute with
      | mk r t1 =>
        cases r with
        | ok u => simp [TTaskScheduler.executeAllLoop, hx, hr, TaskMap.keys, ih]
        | error e => simp [TTaskScheduler.executeAllLoop, hx, hr, TaskMap.keys]

theorem executeAllLoop_find (m : TaskMap) (id : TaskId) :
    (TTaskScheduler.executeAllLoop m).2.find id = m.find id ∨
      (TTaskScheduler.executeAllLoop m).2.find id = (m.find id).map (fun t => t.execute.2) := by
  induction m with
  | nil => left; rfl
  | cons a rest ih =>
    obtain ⟨k, t⟩ := a
    by_cases hk : k = id
    · right
      cases hx : t.isExecuted with
      | true =>
        simp [TTaskScheduler.executeAllLoop, hx, TaskMap.find, hk, task_execute_done t hx]
      | false =>
        cases hr : t.execute with
        | mk r t1 =>
          cases r with
          | ok u => simp [TTaskScheduler.executeAllLoop, hx, hr, TaskMap.find, hk]
          | error e => simp [TTaskScheduler.executeAllLoop, hx, hr, TaskMap.find, hk]
    · cases hx : t.isExecuted with
      | true => simpa [TTaskScheduler.executeAllLoop, hx, TaskMap.find, hk] using ih
      | false =>
        cases hr : t.execute with
        | mk r t1 =>
          cases r with
          | ok u => simpa [TTaskScheduler.executeAllLoop, hx, hr, TaskMap.find, hk] using ih
          | error e =>
            left
            simp [TTaskScheduler.executeAllLoop, hx, hr, TaskMap.find, hk]

/-! ## Basic facts about sequences of calls -/

theorem applyOp_find (s : TTaskScheduler) (op : Op) (id : TaskId)
    (hmint : returnedId s op ≠ some id) :
    (applyOp s op).tasks.find id = s.tasks.find id ∨
      (applyOp s op).tasks.find id = (s.tasks.find id).map (fun t => t.execute.2) := by
  cases op with
  | add R f =>
    left
    have hne : id ≠ ⟨s.nextId_⟩ := by
      intro h
      apply hmint
      simp [returnedId, TTaskScheduler.add, h]
    simp only [applyOp, TTaskScheduler.add]
    exact find_assign_ne _ _ _ _ hne
  | executeAll => exact executeAllLoop_find s.tasks id
  | getResult T id1 =>
    by_cases h : id = id1
    · right
      subst h
      exact getResult_find_same s T id
    · left
      exact getResult_find_ne s T id1 id h
  | isExecuted id1 => left; rfl
  | getFutureResult T id1 => left; rfl
  | force T id1 =>
    by_cases h : id = id1
    · right
      subst h
      exact getResult_find_same s T id
    · left
      exact getResult_find_ne s T id1 id h

theorem applyOp_find_of_not_reach (s : TTaskScheduler) (op : Op) (id : TaskId)
    (hmint : returnedId s op ≠ some id) (hreach : op.mayReach id = false) :
    (applyOp s op).tasks.find id = s.tasks.find id := by
  cases op with
  | add R f =>
    have hne : id ≠ ⟨s.nextId_⟩ := by
      intro h
      apply hmint
      simp [returnedId, TTaskScheduler.add, h]
    simp only [applyOp, TTaskScheduler.add]
    exact find_assign_ne _ _ _ _ hne
  | executeAll => simp [Op.mayReach] at hreach
  | getResult T id1 =>
    have h : id ≠ id1 := by
      intro h
      simp [Op.mayReach, h] at hreach
    exact getResult_find_ne s T id1 id h
  | isExecuted id1 => rfl
  | getFutureResult T id1 => rfl
  | force T id1 =>
    have h : id ≠ id1 := by
      intro h
      simp [Op.mayReach, h] at hreach
    exact getResult_find_ne s T id1 id h

theorem applyOp_nodup (s : TTaskScheduler) (op : Op) (h : s.tasks.keys.Nodup) :
    (applyOp s op).tasks.keys.Nodup := by
  cases op with
  | add R f => exact nodup_keys_assign _ _ _ h
  | executeAll =>
    simp only [applyOp, TTaskScheduler.executeAll]
    rw [executeAllLoop_keys]
    exact h
  | getResult T id1 =>
    simp only [applyOp]
    rw [getResult_keys]
    exact h
  | isExecuted id1 => exact h
  | getFutureResult T id1 => exact h
  | force T id1 =>
    simp only [applyOp, FutureResult.operatorT]
    rw [getResult_keys]
    exact h

theorem wrapInt32_succ (n : Int) (h0 : 0 ≤ n) (h1 : n + 1 ≤ INT_MAX) :
    wrapInt32 (n + 1) = n + 1 := by
  unfold wrapInt32
  unfold INT_MAX at h1
  omega

theorem applyOp_nextId (s : TTaskScheduler) (op : Op) (h0 : 0 ≤ s.nextId_)
    (h1 : s.nextId_ + countAdds [op] ≤ INT_MAX) :
    (applyOp s op).nextId_ = s.nextId_ + countAdds [op] := by
  cases op with
  | add R f =>
    simp only [countAdds] at h1
    simp only [applyOp, TTaskScheduler.add, countAdds]
    exact wrapInt32_succ _ h0 (by simpa using h1)
  | executeAll => simp [applyOp, TTaskScheduler.executeAll, countAdds]
  | getResult T id1 => simp [applyOp, getResult_nextId, countAdds]
  | isExecuted id1 => simp [applyOp, countAdds]
  | getFutureResult T id1 => simp [applyOp, TTaskScheduler.getFutureResult, countAdds]
  | force T id1 => simp [applyOp, FutureResult.operatorT, getResult_nextId, countAdds]

theorem countAdds_cons (op : Op) (ops : List Op) :
    countAdds (op :: ops) = countAdds [op] + countAdds ops := by
  cases op <;> simp [countAdds, Nat.add_comm]

theorem countAdds_append (xs ys : List Op) :
    countAdds (xs ++ ys) = countAdds xs + countAdds ys := by
  induction xs with
  | nil => simp [countAdds]
  | cons op rest ih =>
    rw [List.cons_append, countAdds_cons, ih, countAdds_cons op rest]
    omega

theorem returnedId_lt (s : TTaskScheduler) (op : Op) (id : TaskId) (h : id.id_ < s.nextId_) :
    returnedId s op ≠ some id := by
  cases op with
  | add R f =>
    intro hc
    simp only [returnedId, TTaskScheduler.add, Option.some.injEq] at hc
    rw [← hc] at h
    exact lt_irrefl _ h
  | executeAll => simp [returnedId]
  | getResult T id1 => simp [returnedId]
  | isExecuted id1 => simp [returnedId]
  | getFutureResult T id1 => simp [returnedId]
  | force T id1 => simp [returnedId]

theorem reorder_find (s s1 : TTaskScheduler) (id : TaskId) (h : s.tasks.keys.Nodup)
    (hre : Reorder s s1) : s1.tasks.find id = s.tasks.find id :=
  find_perm s.tasks s1.tasks id h hre.1

theorem reorder_nodup (s s1 : TTaskScheduler) (h : s.tasks.keys.Nodup) (hre : Reorder s s1) :
    s1.tasks.keys.Nodup :=
  ((hre.1.map Prod.fst).nodup_iff).2 h

theorem run_basic {s s2 : TTaskScheduler} {ops : List Op} (hrun : Run s ops s2) :
    s.tasks.keys.Nodup → 0 ≤ s.nextId_ → s.nextId_ + countAdds ops ≤ INT_MAX →
      s2.tasks.keys.Nodup ∧ s2.nextId_ = s.nextId_ + countAdds ops := by
  induction hrun with
  | done s => intro hn _ _; exact ⟨hn, by simp [countAdds]⟩
  | @step s s1 s2 op ops hre _ ih =>
    intro hn h0 hr
    rw [countAdds_cons] at hr
    have hnext : (applyOp s op).nextId_ = s.nextId_ + countAdds [op] :=
      applyOp_nextId s op h0 (by push_cast at hr; omega)
    have hn1 : s1.tasks.keys.Nodup := reorder_nodup _ _ (applyOp_nodup s op hn) hre
    have h1 : s1.nextId_ = s.nextId_ + countAdds [op] := by rw [hre.2, hnext]
    have := ih hn1 (by rw [h1]; omega) (by rw [h1]; push_cast at hr; omega)
    refine ⟨this.1, ?_⟩
    rw [this.2, h1, countAdds_cons op ops]
    push_cast
    omega

theorem run_find_evolves (P : ITask → Prop) (hP : ∀ t, P t → P t.execute.2) (id : TaskId)
    {s s2 : TTaskScheduler} {ops : List Op} (hrun : Run s ops s2) :
    s.tasks.keys.Nodup → 0 ≤ s.nextId_ → id.id_ < s.nextId_ →
      s.nextId_ + countAdds ops ≤ INT_MAX →
      (∃ t, s.tasks.find id = some t ∧ P t) → ∃ t, s2.tasks.find id = some t ∧ P t := by
  induction hrun with
  | done s => intro _ _ _ _ h; exact h
  | @step s s1 s2 op ops hre _ ih =>
    intro hn h0 hlt hr hex
    rw [countAdds_cons] at hr
    have hnext : (applyOp s op).nextId_ = s.nextId_ + countAdds [op] :=
      applyOp_nextId s op h0 (by push_cast at hr; omega)
    have hn1 : s1.tasks.keys.Nodup := reorder_nodup _ _ (applyOp_nodup s op hn) hre
    have h1 : s1.nextId_ = s.nextId_ + countAdds [op] := by rw [hre.2, hnext]
    have hfind : s1.tasks.find id = (applyOp s op).tasks.find id :=
      reorder_find _ _ id (applyOp_nodup s op hn) hre
    apply ih hn1 (by rw [h1]; omega) (by rw [h1]; omega) (by rw [h1]; push_cast at hr; omega)
    obtain ⟨t, ht, hPt⟩ := hex
    rcases applyOp_find s op id (returnedId_lt s op id hlt) with h | h
    · exact ⟨t, by rw [hfind, h, ht], hPt⟩
    · exact ⟨t.execute.2, by rw [hfind, h, ht]; rfl, hP t hPt⟩

theorem run_find_unreached (id : TaskId)
    {s s2 : TTaskScheduler} {ops : List Op} (hrun : Run s ops s2) :
    (∀ op ∈ ops, Op.mayReach id op = false) →
      s.tasks.keys.Nodup → 0 ≤ s.nextId_ → id.id_ < s.nextId_ →
      s.nextId_ + countAdds ops ≤ INT_MAX →
      s2.tasks.find id = s.tasks.find id := by
  induction hrun with
  | done s => intro _ _ _ _ _; rfl
  | @step s s1 s2 op ops hre _ ih =>
    intro hall hn h0 hlt hr
    rw [countAdds_cons] at hr
    have hnext : (applyOp s op).nextId_ = s.nextId_ + countAdds [op] :=
      applyOp_nextId s op h0 (by push_cast at hr; omega)
    have hn1 : s1.tasks.keys.Nodup := reorder_nodup _ _ (applyOp_nodup s op hn) hre
    have h1 : s1.nextId_ = s.nextId_ + countAdds [op] := by rw [hre.2, hnext]
    have hfind : s1.tasks.find id = (applyOp s op).tasks.find id :=
      reorder_find _ _ id (applyOp_nodup s op hn) hre
    rw [ih (fun o ho => hall o (List.mem_cons_of_mem _ ho)) hn1 (by rw [h1]; omega)
      (by rw [h1]; omega) (by rw [h1]; push_cast at hr; omega), hfind]
    exact applyOp_find_of_not_reach s op id (returnedId_lt s op id hlt)
      (hall op (List.mem_cons_self _ _))

theorem run_of_runOps (s : TTaskScheduler) (ops : List Op) : Run s ops (runOps s ops) := by
  induction ops generalizing s with
  | nil => exact Run.done s
  | cons op ops ih => exact Run.step ⟨List.Perm.refl _, rfl⟩ (ih (applyOp s op))

/-! ## Facts shared by the claims -/

theorem doneOnce_execute (R : Ty) (f : Nat → Except Exn R.El) (v : R.El)
    (t : ITask) (h : DoneOnce R f v t) : DoneOnce R f v t.execute.2 := by
  obtain ⟨w, rfl, hfun, he, hc, hr⟩ := h
  have hx : (ITask.mk R w).isExecuted = true := he
  rw [task_execute_done _ hx]
  exact ⟨w, rfl, hfun, he, hc, hr⟩

theorem freshOrDone_step (R : Ty) (f : Nat → Except Exn R.El) (v : R.El) (hf : f 0 = .ok v)
    (t : ITask) (h : FreshOrDone R f v t) :
    t.getResult.1 = .ok ⟨R, v⟩ ∧ DoneOnce R f v t.execute.2 := by
  obtain ⟨w, rfl, hfun, hst⟩ := h
  rcases hst with ⟨he, hc⟩ | ⟨he, hc, hr⟩
  · have hv : w.func_ w.calls = .ok v := by rw [hfun, hc, hf]
    refine ⟨?_, w.execute.2, rfl, ?_⟩
    · simp [ITask.getResult, wrapper_getResult_ok w v he hv]
    · rw [wrapper_execute_ok w v he hv]
      exact ⟨hfun, rfl, by simp [hc], rfl⟩
  · refine ⟨?_, w.execute.2, rfl, ?_⟩
    · simp [ITask.getResult, wrapper_getResult_done w he, hr]
    · rw [wrapper_execute_done w he]
      exact ⟨hfun, he, hc, hr⟩

theorem doneOnce_fresh (R : Ty) (f : Nat → Except Exn R.El) (v : R.El)
    (t : ITask) (h : DoneOnce R f v t) : FreshOrDone R f v t := by
  obtain ⟨w, rfl, hfun, he, hc, hr⟩ := h
  exact ⟨w, rfl, hfun, Or.inr ⟨he, hc, hr⟩⟩

/-- What one typed read does to a task that is fresh or done: it returns the
callable's value and leaves the task done, invoked once. -/
theorem getResult_freshOrDone (s : TTaskScheduler) (R : Ty) (f : Nat → Except Exn R.El)
    (v : R.El) (hf : f 0 = .ok v) (id : TaskId) (t : ITask)
    (hfind : s.tasks.find id = some t) (ht : FreshOrDone R f v t) :
    (s.getResult R id).1 = .ok v ∧
      ∃ t1, (s.getResult R id).2.tasks.find id = some t1 ∧ DoneOnce R f v t1 := by
  obtain ⟨h1, h2⟩ := freshOrDone_step R f v hf t ht
  refine ⟨?_, t.execute.2, ?_, h2⟩
  · rw [getResult_known s R id t hfind, h1]
    exact any_cast_same R v
  · rw [getResult_find_same, hfind]
    rfl

/-- A typed read of a task that is already done changes nothing. -/
theorem getResult_done_state (s : TTaskScheduler) (T : Ty) (id : TaskId) (t : ITask)
    (hfind : s.tasks.find id = some t) (hx : t.isExecuted = true) :
    (s.getResult T id).2 = s := by
  rw [getResult_known s T id t hfind, task_execute_done t hx]
  simp only [assign_of_find s.tasks id t hfind]

/-- The registry right after `add`, in a run that started from a new registry and
stays within `int` range: the new id is the old counter, the task is stored fresh
under it, no key is repeated, and the counter has moved past the id. -/
theorem add_after_run {pre : List Op} {s0 sA : TTaskScheduler} {R : Ty}
    {f : Nat → Except Exn R.El} {id : TaskId}
    (hpre : Run TTaskScheduler.new pre s0)
    (hadd : s0.add R (fun (_ : Unit) => f) () = (id, sA))
    (hrange : (countAdds pre : Int) + 1 ≤ INT_MAX) :
    id.id_ = countAdds pre ∧ sA.nextId_ = countAdds pre + 1 ∧ sA.tasks.keys.Nodup ∧
      sA.tasks.find id = some ⟨R, TaskWrapper.new R (fun (_ : Unit) => f) ()⟩ := by
  have hb := run_basic hpre (by simp [TTaskScheduler.new, TaskMap.keys])
    (by simp [TTaskScheduler.new]) (by simp only [TTaskScheduler.new]; omega)
  simp only [TTaskScheduler.new, zero_add] at hb
  simp only [TTaskScheduler.add, Prod.mk.injEq] at hadd
  obtain ⟨hid, hsA⟩ := hadd
  subst hid
  subst hsA
  refine ⟨hb.2, ?_, nodup_keys_assign _ _ _ hb.1, find_assign_same _ _ _⟩
  simp only
  rw [hb.2]
  exact wrapInt32_succ _ (by omega) hrange

/-! ## C1: reading a result twice -/

/-- C1.  Take any run from a new registry (`pre`), register a callable `f` of result
type `R` whose invocation returns `v` (it does not raise), let any calls follow
(`mid`), the id counter staying within `int` range, the map taking any iteration
order.  Then `getResult<R>(id)` called twice in a row returns `v` both times, the
second call leaves the registry exactly as the first left it, the callable has been
invoked exactly once after the two calls, and after any further calls (`post`) it has
still been invoked exactly once and `getResult<R>(id)` still returns `v`. -/
theorem getResult_twice_invokes_once
    (pre mid post : List Op) (R : Ty) (f : Nat → Except Exn R.El) (v : R.El)
    (s0 sA s1 s2 : TTaskScheduler) (id : TaskId)
    (hf : f 0 = .ok v)
    (hrange : (countAdds pre : Int) + 1 + countAdds mid + countAdds post ≤ INT_MAX)
    (hpre : Run TTaskScheduler.new pre s0)
    (hadd : s0.add R (fun (_ : Unit) => f) () = (id, sA))
    (hre : Reorder sA s1)
    (hmid : Run s1 mid s2) :
    (s2.getResult R id).1 = .ok v ∧
    ((s2.getResult R id).2.getResult R id).1 = .ok v ∧
    ((s2.getResult R id).2.getResult R id).2 = (s2.getResult R id).2 ∧
    ((s2.getResult R id).2.getResult R id).2.callsOf id = some 1 ∧
    ∀ s5, Run ((s2.getResult R id).2.getResult R id).2 post s5 →
      s5.callsOf id = some 1 ∧ (s5.getResult R id).1 = .ok v := by
  obtain ⟨hid, hnext, hnod, hfind⟩ := add_after_run hpre hadd (by omega)
  have hnod1 : s1.tasks.keys.Nodup := reorder_nodup _ _ hnod hre
  have hnext1 : s1.nextId_ = countAdds pre + 1 := by rw [hre.2, hnext]
  have hfind1 : s1.tasks.find id = some ⟨R, TaskWrapper.new R (fun (_ : Unit) => f) ()⟩ := by
    rw [reorder_find _ _ id hnod hre, hfind]
  have hfresh : FreshOrDone R f v ⟨R, TaskWrapper.new R (fun (_ : Unit) => f) ()⟩ :=
    ⟨_, rfl, rfl, Or.inl ⟨rfl, rfl⟩⟩
  obtain ⟨t2, hfind2, ht2⟩ := run_find_evolves (FreshOrDone R f v)
    (freshOrDone_execute R f v hf) id hmid hnod1 (by rw [hnext1]; omega)
    (by rw [hnext1, hid]; omega) (by rw [hnext1]; omega) ⟨_, hfind1, hfresh⟩
  obtain ⟨hnod2, hnext2⟩ := run_basic hmid hnod1 (by rw [hnext1]; omega)
    (by rw [hnext1]; omega)
  obtain ⟨hr1, t3, hfind3, ht3⟩ := getResult_freshOrDone s2 R f v hf id t2 hfind2 ht2
  have hx3 : t3.isExecuted = true := by
    obtain ⟨w, rfl, _, he, _, _⟩ := ht3
    exact he
  have hsame : ((s2.getResult R id).2.getResult R id).2 = (s2.getResult R id).2 :=
    getResult_done_state _ R id t3 hfind3 hx3
  have hcalls : ∀ (s : TTaskScheduler) (t : ITask), s.tasks.find id = some t →
      DoneOnce R f v t → s.callsOf id = some 1 := by
    intro s t hs ht
    obtain ⟨w, rfl, _, _, hc, _⟩ := ht
    simp [TTaskScheduler.callsOf, hs, hc]
  refine ⟨hr1, ?_, hsame, ?_, ?_⟩
  · exact (getResult_freshOrDone _ R f v hf id t3 hfind3 (doneOnce_fresh R f v t3 ht3)).1
  · rw [hsame]
    exact hcalls _ t3 hfind3 ht3
  · intro s5 hpost
    rw [hsame] at hpost
    have hnod3 : (s2.getResult R id).2.tasks.keys.Nodup := by
      rw [getResult_keys]
      exact hnod2
    have hnext3 : (s2.getResult R id).2.nextId_ = countAdds pre + 1 + countAdds mid := by
      rw [getResult_nextId, hnext2, hnext1]
    obtain ⟨t5, hfind5, ht5⟩ := run_find_evolves (DoneOnce R f v)
      (doneOnce_execute R f v) id hpost hnod3 (by rw [hnext3]; omega)
      (by rw [hnext3, hid]; omega) (by rw [hnext3]; omega) ⟨_, hfind3, ht3⟩
    exact ⟨hcalls s5 t5 hfind5 ht5,
      (getResult_freshOrDone s5 R f v hf id t5 hfind5 (doneOnce_fresh R f v t5 ht5)).1⟩

/-- Witness of C1 on the test `GetResultIsConsistent`: register `return 100`, call
`executeAll`, read twice, then read once more and call `executeAll` again. -/
theorem getResult_twice_invokes_once_witness :
    ((runOps (registryOf 100) [Op.executeAll]).getResult .int ⟨0⟩).1 = .ok (100 : Int) ∧
    (((runOps (registryOf 100) [Op.executeAll]).getResult .int ⟨0⟩).2.getResult .int ⟨0⟩).1
      = .ok (100 : Int) ∧
    (((runOps (registryOf 100) [Op.executeAll]).getResult .int ⟨0⟩).2.getResult .int ⟨0⟩).2
      = ((runOps (registryOf 100) [Op.executeAll]).getResult .int ⟨0⟩).2 ∧
    (((runOps (registryOf 100) [Op.executeAll]).getResult .int ⟨0⟩).2.getResult .int ⟨0⟩).2.callsOf
      ⟨0⟩ = some 1 ∧
    ∀ s5, Run (((runOps (registryOf 100) [Op.executeAll]).getResult .int ⟨0⟩).2.getResult
        .int ⟨0⟩).2 [Op.getResult .int ⟨0⟩, Op.executeAll] s5 →
      s5.callsOf ⟨0⟩ = some 1 ∧ (s5.getResult .int ⟨0⟩).1 = .ok (100 : Int) :=
  getResult_twice_invokes_once [] [Op.executeAll] [Op.getResult .int ⟨0⟩, Op.executeAll]
    .int (returnsInt 100) (100 : Int) TTaskScheduler.new (registryOf 100) (registryOf 100)
    (runOps (registryOf 100) [Op.executeAll]) ⟨0⟩ rfl (by simp [countAdds, INT_MAX])
    (Run.done _) rfl ⟨List.Perm.refl _, rfl⟩ (run_of_runOps _ _)

/-! ## C2: `executeAll` executes every pending task -/

theorem mem_assign (m : TaskMap) (id : TaskId) (t : ITask) (e : TaskId × ITask)
    (h : e ∈ m.assign id t) : e ∈ m ∨ e = (id, t) := by
  induction m with
  | nil => right; simpa [TaskMap.assign] using h
  | cons a rest ih =>
    obtain ⟨k, t0⟩ := a
    by_cases hk : k = id
    · simp only [TaskMap.assign, hk, if_true, List.mem_cons] at h
      rcases h with h | h
      · right; exact h
      · left; exact List.mem_cons_of_mem _ h
    · simp only [TaskMap.assign, hk, if_false, List.mem_cons] at h
      rcases h with h | h
      · left; rw [h]; exact List.mem_cons_self _ _
      · rcases ih h with h1 | h1
        · left; exact List.mem_cons_of_mem _ h1
        · right; exact h1

theorem executeAllLoop_ok (m : TaskMap) (h : ∀ e ∈ m, e.2.execute.1 = .ok ()) :
    TTaskScheduler.executeAllLoop m = (.ok (), m.map (fun e => (e.1, e.2.execute.2))) := by
  induction m with
  | nil => rfl
  | cons a rest ih =>
    obtain ⟨k, t⟩ := a
    have hrest := ih (fun e he => h e (List.mem_cons_of_mem _ he))
    have ht : t.execute.1 = .ok () := h (k, t) (List.mem_cons_self _ _)
    cases hx : t.isExecuted with
    | true =>
      simp [TTaskScheduler.executeAllLoop, hx, hrest, task_execute_done t hx]
    | false =>
      cases hr : t.execute with
      | mk r t1 =>
        rw [hr] at ht
        simp only at ht
        subst ht
        simp [TTaskScheduler.executeAllLoop, hx, hr, hrest]

theorem find_map_execute (m : TaskMap) (id : TaskId) :
    TaskMap.find (m.map (fun e => (e.1, e.2.execute.2))) id
      = (m.find id).map (fun t => t.execute.2) := by
  induction m with
  | nil => rfl
  | cons a rest ih =>
    obtain ⟨k, t⟩ := a
    by_cases hk : k = id
    · simp [TaskMap.find, hk]
    · simpa [TaskMap.find, hk] using ih

theorem fresh_execute_ok (R : Ty) (f : Nat → Except Exn R.El) (v : R.El) (hf : f 0 = .ok v) :
    (ITask.mk R (TaskWrapper.new R (fun (_ : Unit) => f) ())).execute.1 = .ok () := by
  have h := wrapper_execute_ok (TaskWrapper.new R (fun (_ : Unit) => f) ()) v rfl hf
  simp [ITask.execute, h]

theorem run_adds_ok {s s2 : TTaskScheduler} {ops : List Op} (hrun : Run s ops s2) :
    (∀ op ∈ ops, ∃ a : AddCall, op = a.toOp ∧ ∃ v, a.func 0 = .ok v) →
      (∀ e ∈ s.tasks, e.2.execute.1 = .ok ()) → ∀ e ∈ s2.tasks, e.2.execute.1 = .ok () := by
  induction hrun with
  | done s => intro _ h; exact h
  | @step s s1 s2 op ops hre _ ih =>
    intro hops hs
    apply ih (fun o ho => hops o (List.mem_cons_of_mem _ ho))
    intro e he
    have he1 : e ∈ (applyOp s op).tasks := hre.1.mem_iff.1 he
    obtain ⟨a, rfl, v, hv⟩ := hops op (List.mem_cons_self _ _)
    simp only [AddCall.toOp, applyOp, TTaskScheduler.add] at he1
    rcases mem_assign _ _ _ _ he1 with h | h
    · exact hs e h
    · rw [h]
      exact fresh_execute_ok a.R a.func v hv

theorem countAdds_map_toOp (adds : List AddCall) :
    countAdds (adds.map AddCall.toOp) = adds.length := by
  induction adds with
  | nil => rfl
  | cons a rest ih => simp [AddCall.toOp, countAdds, ih]

theorem mayReach_toOp (adds : List AddCall) (id : TaskId) :
    ∀ op ∈ adds.map AddCall.toOp, Op.mayReach id op = false := by
  intro op hop
  obtain ⟨a, _, rfl⟩ := List.mem_map.1 hop
  rfl

theorem toOp_ok (adds : List AddCall) (h : ∀ b ∈ adds, ∃ u, b.func 0 = .ok u) :
    ∀ op ∈ adds.map AddCall.toOp, ∃ a : AddCall, op = a.toOp ∧ ∃ v, a.func 0 = .ok v := by
  intro op hop
  obtain ⟨a, ha, rfl⟩ := List.mem_map.1 hop
  exact ⟨a, rfl, h a ha⟩

/-- C2.  Register any tasks in any order (`before`, then `a`, then `after`), none of
whose callables raises, the id counter staying within `int` range and the map taking
any iteration order.  One `executeAll` then succeeds, and for the task `a`, whichever
place it has in the sequence: `isExecuted(id)` is true, `getResult<R>(id)` returns
exactly the value `v` of its own callable without changing the registry any more, and
its callable has been invoked exactly once. -/
theorem executeAll_executes_every_task
    (before after : List AddCall) (a : AddCall) (v : a.R.El)
    (sP sA sQ s0 : TTaskScheduler) (id : TaskId)
    (hno : ∀ b ∈ before ++ after, ∃ u, b.func 0 = .ok u)
    (hv : a.func 0 = .ok v)
    (hrange : (before.length : Int) + 1 + after.length ≤ INT_MAX)
    (hpre : Run TTaskScheduler.new (before.map AddCall.toOp) sP)
    (hadd : sP.add a.R (fun (_ : Unit) => a.func) () = (id, sA))
    (hre : Reorder sA sQ)
    (hpost : Run sQ (after.map AddCall.toOp) s0) :
    s0.executeAll.1 = .ok () ∧
    s0.executeAll.2.isExecuted id = .ok true ∧
    s0.executeAll.2.getResult a.R id = (.ok v, s0.executeAll.2) ∧
    s0.executeAll.2.callsOf id = some 1 := by
  have hcb := countAdds_map_toOp before
  have hca := countAdds_map_toOp after
  obtain ⟨hid, hnext, hnod, hfind⟩ := add_after_run hpre hadd (by rw [hcb]; omega)
  have hnodQ : sQ.tasks.keys.Nodup := reorder_nodup _ _ hnod hre
  have hnextQ : sQ.nextId_ = before.length + 1 := by rw [hre.2, hnext, hcb]
  have hfindQ : sQ.tasks.find id = some ⟨a.R, TaskWrapper.new a.R (fun (_ : Unit) => a.func) ()⟩ := by
    rw [reorder_find _ _ id hnod hre, hfind]
  have hfind0 : s0.tasks.find id = some ⟨a.R, TaskWrapper.new a.R (fun (_ : Unit) => a.func) ()⟩ := by
    rw [run_find_unreached id hpost (mayReach_toOp after id) hnodQ (by rw [hnextQ]; omega)
      (by rw [hnextQ, hid, hcb]; omega) (by rw [hnextQ, hca]; omega), hfindQ]
  -- every stored task executes without raising
  have hokP : ∀ e ∈ sP.tasks, e.2.execute.1 = .ok () :=
    run_adds_ok hpre (toOp_ok before (fun b hb => hno b (List.mem_append_left _ hb)))
      (by simp [TTaskScheduler.new])
  have hokA : ∀ e ∈ sA.tasks, e.2.execute.1 = .ok () := by
    intro e he
    simp only [TTaskScheduler.add, Prod.mk.injEq] at hadd
    rw [← hadd.2] at he
    rcases mem_assign _ _ _ _ he with h | h
    · exact hokP e h
    · rw [h]
      exact fresh_execute_ok a.R a.func v hv
  have hok0 : ∀ e ∈ s0.tasks, e.2.execute.1 = .ok () :=
    run_adds_ok hpost (toOp_ok after (fun b hb => hno b (List.mem_append_right _ hb)))
      (fun e he => hokA e (hre.1.mem_iff.1 he))
  have hloop := executeAllLoop_ok s0.tasks hok0
  have hfresh : FreshOrDone a.R a.func v
      ⟨a.R, TaskWrapper.new a.R (fun (_ : Unit) => a.func) ()⟩ :=
    ⟨_, rfl, rfl, Or.inl ⟨rfl, rfl⟩⟩
  obtain ⟨_, hdone⟩ := freshOrDone_step a.R a.func v hv _ hfresh
  have hfindE : s0.executeAll.2.tasks.find id
      = some (ITask.mk a.R (TaskWrapper.new a.R (fun (_ : Unit) => a.func) ())).execute.2 := by
    simp only [TTaskScheduler.executeAll, hloop]
    rw [find_map_execute, hfind0]
    rfl
  have hx : (ITask.mk a.R (TaskWrapper.new a.R (fun (_ : Unit) => a.func) ())).execute.2.isExecuted
      = true := by
    obtain ⟨w, hw, _, he, _, _⟩ := hdone
    rw [hw]
    exact he
  refine ⟨by simp [TTaskScheduler.executeAll, hloop], ?_, ?_, ?_⟩
  · simp [TTaskScheduler.isExecuted, hfindE, hx]
  · apply Prod.ext
    · exact (getResult_freshOrDone _ a.R a.func v hv id _ hfindE
        (doneOnce_fresh _ _ _ _ hdone)).1
    · exact getResult_done_state _ a.R id _ hfindE hx
  · obtain ⟨w, hw, _, _, hc, _⟩ := hdone
    simp [TTaskScheduler.callsOf, hfindE, hw, hc]

/-- Witness of C2 on the test `MultipleTasksIndependent`: after `return 10` and
`return 20` are registered and `executeAll` is called, the second task reads `20`. -/
theorem executeAll_executes_every_task_witness :
    registry10and20.executeAll.1 = .ok () ∧
    registry10and20.executeAll.2.isExecuted ⟨1⟩ = .ok true ∧
    registry10and20.executeAll.2.getResult .int ⟨1⟩
      = (.ok (20 : Int), registry10and20.executeAll.2) ∧
    registry10and20.executeAll.2.callsOf ⟨1⟩ = some 1 :=
  executeAll_executes_every_task [⟨.int, returnsInt 10⟩] [] ⟨.int, returnsInt 20⟩ (20 : Int)
    (registryOf 10) registry10and20 registry10and20 registry10and20 ⟨1⟩
    (by
      intro b hb
      simp only [List.append_nil, List.mem_singleton] at hb
      subst hb
      exact ⟨(10 : Int), rfl⟩)
    rfl (by simp [INT_MAX]) (run_of_runOps _ _) rfl ⟨List.Perm.refl _, rfl⟩ (Run.done _)

/-! ## C3: registration is lazy -/

/-- C3.  In any run from a new registry, `add` of any callable (raising or not)
invokes nothing: right after it returns `id`, `isExecuted(id)` is false, the new
callable has been invoked zero times, and the invocation count of every other task is
what it was.  This stays so through any later calls none of which is an `executeAll`
or a `getResult` / handle conversion addressed to `id`, the id counter staying within
`int` range and the map taking any iteration order. -/
theorem add_is_lazy
    (pre later : List Op) (R : Ty) (f : Nat → Except Exn R.El)
    (s0 sA s1 s2 : TTaskScheduler) (id : TaskId)
    (hrange : (countAdds pre : Int) + 1 + countAdds later ≤ INT_MAX)
    (hpre : Run TTaskScheduler.new pre s0)
    (hadd : s0.add R (fun (_ : Unit) => f) () = (id, sA))
    (hre : Reorder sA s1)
    (hlater : ∀ op ∈ later, Op.mayReach id op = false)
    (hrun : Run s1 later s2) :
    sA.isExecuted id = .ok false ∧ sA.callsOf id = some 0 ∧
    (∀ id1, id1 ≠ id → sA.callsOf id1 = s0.callsOf id1) ∧
    s2.isExecuted id = .ok false ∧ s2.callsOf id = some 0 := by
  obtain ⟨hid, hnext, hnod, hfind⟩ := add_after_run hpre hadd (by omega)
  have hnod1 : s1.tasks.keys.Nodup := reorder_nodup _ _ hnod hre
  have hnext1 : s1.nextId_ = countAdds pre + 1 := by rw [hre.2, hnext]
  have hfind1 : s1.tasks.find id = some ⟨R, TaskWrapper.new R (fun (_ : Unit) => f) ()⟩ := by
    rw [reorder_find _ _ id hnod hre, hfind]
  have hfind2 : s2.tasks.find id = some ⟨R, TaskWrapper.new R (fun (_ : Unit) => f) ()⟩ := by
    rw [run_find_unreached id hrun hlater hnod1 (by rw [hnext1]; omega)
      (by rw [hnext1, hid]; omega) (by rw [hnext1]; omega), hfind1]
  refine ⟨?_, ?_, ?_, ?_, ?_⟩
  · simp [TTaskScheduler.isExecuted, hfind, ITask.isExecuted, TaskWrapper.isExecuted,
      TaskWrapper.new]
  · simp [TTaskScheduler.callsOf, hfind, TaskWrapper.new]
  · intro id1 hne
    simp only [TTaskScheduler.add, Prod.mk.injEq] at hadd
    obtain ⟨h1, h2⟩ := hadd
    subst h1
    subst h2
    simp only [TTaskScheduler.callsOf]
    rw [find_assign_ne _ _ _ _ hne]
  · simp [TTaskScheduler.isExecuted, hfind2, ITask.isExecuted, TaskWrapper.isExecuted,
      TaskWrapper.new]
  · simp [TTaskScheduler.callsOf, hfind2, TaskWrapper.new]

/-- Witness of C3 on the test `FutureExecutesLazily`: after `add` of `return 77`, a
`getFutureResult<int>(id)` and an `isExecuted(id)` leave the task not executed. -/
theorem add_is_lazy_witness :
    (registryOf 77).isExecuted ⟨0⟩ = .ok false ∧ (registryOf 77).callsOf ⟨0⟩ = some 0 ∧
    (∀ id1, id1 ≠ (⟨0⟩ : TaskId) →
      (registryOf 77).callsOf id1 = TTaskScheduler.new.callsOf id1) ∧
    (runOps (registryOf 77) [Op.getFutureResult .int ⟨0⟩, Op.isExecuted ⟨0⟩]).isExecuted ⟨0⟩
      = .ok false ∧
    (runOps (registryOf 77) [Op.getFutureResult .int ⟨0⟩, Op.isExecuted ⟨0⟩]).callsOf ⟨0⟩
      = some 0 :=
  add_is_lazy [] [Op.getFutureResult .int ⟨0⟩, Op.isExecuted ⟨0⟩] .int (returnsInt 77)
    TTaskScheduler.new (registryOf 77) (registryOf 77)
    (runOps (registryOf 77) [Op.getFutureResult .int ⟨0⟩, Op.isExecuted ⟨0⟩]) ⟨0⟩
    (by simp [countAdds, INT_MAX]) (Run.done _) rfl ⟨List.Perm.refl _, rfl⟩
    (by
      intro op hop
      simp only [List.mem_cons, List.mem_singleton, List.not_mem_nil, or_false] at hop
      rcases hop with h | h <;> subst h <;> rfl)
    (run_of_runOps _ _)

/-! ## C4: a read executes a pending task -/

theorem getResult_pending_ok (s : TTaskScheduler) (T R : Ty) (id : TaskId)
    (w : TaskWrapper R) (v : R.El) (hfind : s.tasks.find id = some ⟨R, w⟩)
    (hpending : w.executed_ = false) (hv : w.func_ w.calls = .ok v) :
    s.getResult T id =
      (any_cast T ⟨R, v⟩,
       { s with
          tasks := s.tasks.assign id
            (ITask.mk R { w with calls := w.calls + 1, result_ := v, executed_ := true }) }) := by
  rw [getResult_known s T id _ hfind]
  simp [ITask.getResult, ITask.execute, wrapper_getResult_ok w v hpending hv,
    wrapper_execute_ok w v hpending hv]

theorem getResult_pending_error (s : TTaskScheduler) (T R : Ty) (id : TaskId)
    (w : TaskWrapper R) (e : Exn) (hfind : s.tasks.find id = some ⟨R, w⟩)
    (hpending : w.executed_ = false) (he : w.func_ w.calls = .error e) :
    s.getResult T id =
      (.error e,
       { s with tasks := s.tasks.assign id (ITask.mk R { w with calls := w.calls + 1 }) }) := by
  rw [getResult_known s T id _ hfind]
  simp [ITask.getResult, ITask.execute, wrapper_getResult_error w e hpending he,
    wrapper_execute_error w e hpending he]

theorem getResult_done (s : TTaskScheduler) (T R : Ty) (id : TaskId)
    (w : TaskWrapper R) (hfind : s.tasks.find id = some ⟨R, w⟩)
    (hdone : w.executed_ = true) :
    s.getResult T id = (any_cast T ⟨R, w.result_⟩, s) := by
  apply Prod.ext
  · rw [getResult_known s T id _ hfind]
    simp [ITask.getResult, wrapper_getResult_done w hdone]
  · exact getResult_done_state s T id _ hfind hdone

/-- C4.  For a registered task of result type `T` that has not been executed and whose
callable returns `v` when invoked, `getResult<T>(id)` with no `executeAll` before it
returns exactly `v`, leaves `isExecuted(id)` true and has invoked the callable once
more; `executeAll` followed by `getResult<T>(id)` returns the same `v`. -/
theorem getResult_executes_pending
    (s : TTaskScheduler) (T : Ty) (id : TaskId) (w : TaskWrapper T) (v : T.El)
    (hfind : s.tasks.find id = some ⟨T, w⟩)
    (hpending : w.executed_ = false)
    (hv : w.func_ w.calls = .ok v) :
    s.isExecuted id = .ok false ∧
    (s.getResult T id).1 = .ok v ∧
    (s.getResult T id).2.isExecuted id = .ok true ∧
    (s.getResult T id).2.callsOf id = some (w.calls + 1) ∧
    (s.executeAll.2.getResult T id).1 = .ok v := by
  have hg := getResult_pending_ok s T T id w v hfind hpending hv
  refine ⟨?_, ?_, ?_, ?_, ?_⟩
  · simp [TTaskScheduler.isExecuted, hfind, ITask.isExecuted, TaskWrapper.isExecuted,
      hpending]
  · rw [hg]
    exact any_cast_same T v
  · rw [hg]
    simp [TTaskScheduler.isExecuted, find_assign_same, ITask.isExecuted,
      TaskWrapper.isExecuted]
  · rw [hg]
    simp [TTaskScheduler.callsOf, find_assign_same]
  · rcases executeAllLoop_find s.tasks id with h | h
    · have h1 : s.executeAll.2.tasks.find id = some ⟨T, w⟩ := by
        simp only [TTaskScheduler.executeAll]
        rw [h, hfind]
      rw [getResult_pending_ok _ T T id w v h1 hpending hv]
      exact any_cast_same T v
    · have h1 : s.executeAll.2.tasks.find id
          = some ⟨T, { w with calls := w.calls + 1, result_ := v, executed_ := true }⟩ := by
        simp only [TTaskScheduler.executeAll]
        rw [h, hfind]
        simp [ITask.execute, wrapper_execute_ok w v hpending hv]
      rw [getResult_done _ T T id _ h1 rfl]
      exact any_cast_same T v

/-- Witness of C4 on the test `ResultWithoutExecuteDefaultBehavior`: `add` of
`return 99`, then `getResult<int>(id)` with no `executeAll`. -/
theorem getResult_executes_pending_witness :
    (registryOf 99).isExecuted ⟨0⟩ = .ok false ∧
    ((registryOf 99).getResult .int ⟨0⟩).1 = .ok (99 : Int) ∧
    ((registryOf 99).getResult .int ⟨0⟩).2.isExecuted ⟨0⟩ = .ok true ∧
    ((registryOf 99).getResult .int ⟨0⟩).2.callsOf ⟨0⟩ = some 1 ∧
    ((registryOf 99).executeAll.2.getResult .int ⟨0⟩).1 = .ok (99 : Int) :=
  getResult_executes_pending (registryOf 99) .int ⟨0⟩
    (TaskWrapper.new .int (fun (_ : Unit) => returnsInt 99) ()) (99 : Int) rfl rfl rfl

/-! ## C5: a raising callable leaves the task pending -/

/-- C5.  For a registered task that has not been executed and whose callable raises
`e` when invoked, `getResult<T>(id)` (for any `T`) fails with exactly `e`;
afterwards `isExecuted(id)` is still false and the task is as before but for its
invocation count, so nothing has been cached; a second `getResult<T>(id)` invokes the
callable again and ends as that new invocation does. -/
theorem getResult_error_leaves_pending
    (s : TTaskScheduler) (T R : Ty) (id : TaskId) (w : TaskWrapper R) (e : Exn)
    (hfind : s.tasks.find id = some ⟨R, w⟩)
    (hpending : w.executed_ = false)
    (he : w.func_ w.calls = .error e) :
    (s.getResult T id).1 = .error e ∧
    (s.getResult T id).2.isExecuted id = .ok false ∧
    (s.getResult T id).2.tasks.find id = some ⟨R, { w with calls := w.calls + 1 }⟩ ∧
    ((s.getResult T id).2.getResult T id).2.callsOf id = some (w.calls + 2) ∧
    ((s.getResult T id).2.getResult T id).1 =
      (match w.func_ (w.calls + 1) with
        | .error e1 => .error e1
        | .ok v => any_cast T ⟨R, v⟩) := by
  have hg := getResult_pending_error s T R id w e hfind hpending he
  have hfind1 : (s.getResult T id).2.tasks.find id
      = some ⟨R, { w with calls := w.calls + 1 }⟩ := by
    rw [hg]
    exact find_assign_same _ _ _
  refine ⟨by rw [hg], ?_, hfind1, ?_, ?_⟩
  · simp [TTaskScheduler.isExecuted, hfind1, ITask.isExecuted, TaskWrapper.isExecuted,
      hpending]
  · cases hv : w.func_ (w.calls + 1) with
    | ok v =>
      rw [getResult_pending_ok _ T R id _ v hfind1 hpending hv]
      simp [TTaskScheduler.callsOf, find_assign_same]
    | error e1 =>
      rw [getResult_pending_error _ T R id _ e1 hfind1 hpending hv]
      simp [TTaskScheduler.callsOf, find_assign_same]
  · cases hv : w.func_ (w.calls + 1) with
    | ok v => rw [getResult_pending_ok _ T R id _ v hfind1 hpending hv]
    | error e1 => rw [getResult_pending_error _ T R id _ e1 hfind1 hpending hv]

/-- Witness of C5 on the test `TaskThrowsException`: `add` of a callable that throws
`std::runtime_error("oops")`, then `getResult<int>(id)` twice. -/
theorem getResult_error_leaves_pending_witness :
    (registryOops.getResult .int ⟨0⟩).1 = .error (.runtime_error "oops") ∧
    (registryOops.getResult .int ⟨0⟩).2.isExecuted ⟨0⟩ = .ok false ∧
    ((registryOops.getResult .int ⟨0⟩).2.getResult .int ⟨0⟩).2.callsOf ⟨0⟩ = some 2 :=
  have h := getResult_error_leaves_pending registryOops .int .int ⟨0⟩
    (TaskWrapper.new .int (fun (_ : Unit) => throwsOops) ()) (.runtime_error "oops")
    rfl rfl rfl
  ⟨h.1, h.2.1, h.2.2.2.1⟩

/-! ## C6: queries on an unknown identifier -/

theorem applyOp_nextId_congr (s s1 : TTaskScheduler) (op : Op) (h : s1.nextId_ = s.nextId_) :
    (applyOp s1 op).nextId_ = (applyOp s op).nextId_ ∧ returnedId s1 op = returnedId s op := by
  cases op with
  | add R f => simp [applyOp, returnedId, TTaskScheduler.add, h]
  | executeAll => simp [applyOp, returnedId, TTaskScheduler.executeAll, h]
  | getResult T id1 => simp [applyOp, returnedId, getResult_nextId, h]
  | isExecuted id1 => simp [applyOp, returnedId, h]
  | getFutureResult T id1 => simp [applyOp, returnedId, TTaskScheduler.getFutureResult, h]
  | force T id1 => simp [applyOp, returnedId, FutureResult.operatorT, getResult_nextId, h]

theorem mintedIds_congr (ops : List Op) (s s1 : TTaskScheduler) (h : s1.nextId_ = s.nextId_) :
    mintedIds s1 ops = mintedIds s ops := by
  induction ops generalizing s s1 with
  | nil => rfl
  | cons op ops ih =>
    obtain ⟨h1, h2⟩ := applyOp_nextId_congr s s1 op h
    simp only [mintedIds, h2, ih (applyOp s op) (applyOp s1 op) h1]

theorem applyOp_keys (s : TTaskScheduler) (op : Op) (k : TaskId)
    (hk : k ∈ (applyOp s op).tasks.keys) : k ∈ s.tasks.keys ∨ returnedId s op = some k := by
  cases op with
  | add R f =>
    simp only [applyOp, TTaskScheduler.add, TaskMap.keys, List.mem_map] at hk
    obtain ⟨e, he, hek⟩ := hk
    rcases mem_assign _ _ _ _ he with h | h
    · left
      simp only [TaskMap.keys, List.mem_map]
      exact ⟨e, h, hek⟩
    · right
      rw [h] at hek
      simp [returnedId, TTaskScheduler.add, ← hek]
  | executeAll =>
    left
    simpa only [applyOp, TTaskScheduler.executeAll, executeAllLoop_keys] using hk
  | getResult T id1 =>
    left
    simpa only [applyOp, getResult_keys] using hk
  | isExecuted id1 => left; exact hk
  | getFutureResult T id1 => left; exact hk
  | force T id1 =>
    left
    simpa only [applyOp, FutureResult.operatorT, getResult_keys] using hk

theorem run_keys_minted {s s2 : TTaskScheduler} {ops : List Op} (hrun : Run s ops s2) :
    ∀ k ∈ s2.tasks.keys, k ∈ s.tasks.keys ∨ k ∈ mintedIds s ops := by
  induction hrun with
  | done s => intro k hk; left; exact hk
  | @step s s1 s2 op ops hre _ ih =>
    intro k hk
    rcases ih k hk with h | h
    · have h1 : k ∈ (applyOp s op).tasks.keys := ((hre.1.map Prod.fst).mem_iff).1 h
      rcases applyOp_keys s op k h1 with h2 | h2
      · left; exact h2
      · right
        simp [mintedIds, h2]
    · right
      rw [mintedIds_congr ops (applyOp s op) s1 hre.2] at h
      simp only [mintedIds, List.mem_append]
      right
      exact h

theorem mintedIds_eq (ops : List Op) (s : TTaskScheduler) (h0 : 0 ≤ s.nextId_)
    (hr : s.nextId_ + countAdds ops ≤ INT_MAX) :
    mintedIds s ops
      = (List.range (countAdds ops)).map (fun (k : Nat) => (⟨s.nextId_ + (k : Int)⟩ : TaskId)) := by
  induction ops generalizing s with
  | nil => rfl
  | cons op ops ih =>
    rw [countAdds_cons] at hr
    have hnext := applyOp_nextId s op h0 (by push_cast at hr; omega)
    have hrec := ih (applyOp s op) (by rw [hnext]; omega)
      (by rw [hnext]; push_cast at hr; omega)
    simp only [mintedIds, hrec, hnext]
    cases op with
    | add R f =>
      simp only [returnedId, TTaskScheduler.add, countAdds, Option.toList_some,
        List.singleton_append]
      rw [Nat.add_comm (countAdds ops) 1, Nat.add_comm 1 (countAdds ops),
        List.range_succ_eq_map, List.map_cons, List.map_map]
      simp only [Nat.cast_zero, add_zero, Nat.cast_one, List.cons.injEq, true_and]
      apply List.map_congr_left
      intro k _
      simp only [Function.comp, Nat.succ_eq_add_one, Nat.cast_add, Nat.cast_one]
      congr 1
      omega
    | executeAll => simp [returnedId, countAdds]
    | getResult T id1 => simp [returnedId, countAdds]
    | isExecuted id1 => simp [returnedId, countAdds]
    | getFutureResult T id1 => simp [returnedId, countAdds]
    | force T id1 => simp [returnedId, countAdds]

/-- C6.  In any run from a new registry, for an id that no `add` of the run has
returned, `isExecuted(id)` and `getResult<T>(id)` for every `T` fail with
`std::runtime_error` (messages "Invalid task id" and "Task not found"), and the
registry, invocation counts included, is exactly as before.  The default
`TaskId(-1)` is such an id as long as the counter stays within `int` range. -/
theorem unknown_id_query_fails
    (ops : List Op) (s : TTaskScheduler) (id : TaskId)
    (hrun : Run TTaskScheduler.new ops s)
    (hid : id ∉ mintedIds TTaskScheduler.new ops) :
    s.isExecuted id = .error (.runtime_error "Invalid task id") ∧
    applyOp s (.isExecuted id) = s ∧
    (∀ T, s.getResult T id = (.error (.runtime_error "Task not found"), s)) ∧
    ((countAdds ops : Int) ≤ INT_MAX → (⟨-1⟩ : TaskId) ∉ mintedIds TTaskScheduler.new ops) := by
  have hnone : s.tasks.find id = none := by
    rw [find_eq_none_iff]
    intro hk
    rcases run_keys_minted hrun id hk with h | h
    · simp [TTaskScheduler.new, TaskMap.keys] at h
    · exact hid h
  refine ⟨by simp [TTaskScheduler.isExecuted, hnone], rfl,
    fun T => getResult_unknown s T id hnone, ?_⟩
  intro hr hmem
  rw [mintedIds_eq ops TTaskScheduler.new (by simp [TTaskScheduler.new])
    (by simpa [TTaskScheduler.new] using hr)] at hmem
  simp only [TTaskScheduler.new, zero_add, List.mem_map, List.mem_range, TaskId.mk.injEq] at hmem
  obtain ⟨k, _, hk⟩ := hmem
  omega

/-- Witness of C6: after `add` of `return 10` and `add` of `return 20`, the id `7` has
never been returned. -/
theorem unknown_id_query_fails_witness :
    registry10and20.isExecuted ⟨7⟩ = .error (.runtime_error "Invalid task id") ∧
    (∀ T, registry10and20.getResult T ⟨7⟩
      = (.error (.runtime_error "Task not found"), registry10and20)) :=
  have h := unknown_id_query_fails
    [Op.add .int (returnsInt 10), Op.add .int (returnsInt 20)] registry10and20 ⟨7⟩
    (run_of_runOps _ _) (by decide)
  ⟨h.1, h.2.2.1⟩

/-! ## C7: a handle for an unknown identifier -/

/-- C7, as stated, fails: on a new registry, where the id `0` was never registered,
`getFutureResult<int>(TaskId(0))` does not fail but returns a handle bound to that
id. -/
theorem getFutureResult_unknown_returns_handle :
    TTaskScheduler.new.tasks.find ⟨0⟩ = none ∧
    (TTaskScheduler.new.getFutureResult .int ⟨0⟩).1 = .ok ⟨⟨0⟩⟩ ∧
    ∀ e, (TTaskScheduler.new.getFutureResult .int ⟨0⟩).1 ≠ .error e := by
  refine ⟨rfl, rfl, ?_⟩
  intro e h
  simp [TTaskScheduler.getFutureResult] at h

/-- C7, amended.  `getFutureResult<T>(id)` never fails and looks nothing up: for
every registry and every id, registered or not, it returns a handle bound to `id`
and leaves the registry as it is.  For an id that is not registered the error
`std::runtime_error("Task not found")` comes only when the handle is converted, and
the conversion leaves the registry as it is. -/
theorem getFutureResult_never_fails (s : TTaskScheduler) (T : Ty) (id : TaskId) :
    s.getFutureResult T id = (.ok ⟨id⟩, s) ∧
    (s.tasks.find id = none →
      (⟨id⟩ : FutureResult T).operatorT s = (.error (.runtime_error "Task not found"), s)) :=
  ⟨rfl, fun h => getResult_unknown s T id h⟩

/-! ## C8: type safety of a read -/

/-- C8, as stated, fails: the task registered by the test `TaskThrowsException` has
result type `int`; `getResult<bool>(id)` on it fails with the callable's
`std::runtime_error("oops")`, not with the type-mismatch error. -/
theorem getResult_mismatch_raising_callable :
    registryOops.tasks.find ⟨0⟩
      = some ⟨.int, TaskWrapper.new .int (fun (_ : Unit) => throwsOops) ()⟩ ∧
    (registryOops.getResult .bool ⟨0⟩).1 = .error (.runtime_error "oops") ∧
    (registryOops.getResult .bool ⟨0⟩).1 ≠ .error .bad_any_cast := by
  refine ⟨rfl, rfl, ?_⟩
  intro h
  have h1 : (registryOops.getResult .bool ⟨0⟩).1 = .error (.runtime_error "oops") := rfl
  rw [h1] at h
  cases h

/-- C8, amended.  For a registered task of result type `R` and a requested type
`T` different from `R`, `getResult<T>(id)` never returns a value: it fails with
`std::bad_any_cast` when the task is already executed or its callable returns, and
with the callable's own error when the task is pending and its callable raises. -/
theorem getResult_type_safety
    (s : TTaskScheduler) (T R : Ty) (id : TaskId) (w : TaskWrapper R)
    (hfind : s.tasks.find id = some ⟨R, w⟩)
    (hne : T ≠ R) :
    (∀ v, (s.getResult T id).1 ≠ .ok v) ∧
    (w.executed_ = true → (s.getResult T id).1 = .error .bad_any_cast) ∧
    (∀ v, w.executed_ = false → w.func_ w.calls = .ok v →
      (s.getResult T id).1 = .error .bad_any_cast) ∧
    (∀ e, w.executed_ = false → w.func_ w.calls = .error e →
      (s.getResult T id).1 = .error e) := by
  have h1 : w.executed_ = true → (s.getResult T id).1 = .error .bad_any_cast := by
    intro hx
    rw [getResult_done s T R id w hfind hx]
    exact any_cast_ne T R _ hne
  have h2 : ∀ v, w.executed_ = false → w.func_ w.calls = .ok v →
      (s.getResult T id).1 = .error .bad_any_cast := by
    intro v hx hv
    rw [getResult_pending_ok s T R id w v hfind hx hv]
    exact any_cast_ne T R _ hne
  have h3 : ∀ e, w.executed_ = false → w.func_ w.calls = .error e →
      (s.getResult T id).1 = .error e := by
    intro e hx hv
    rw [getResult_pending_error s T R id w e hfind hx hv]
  refine ⟨?_, h1, h2, h3⟩
  intro v hv
  cases hx : w.executed_ with
  | true => rw [h1 hx] at hv; cases hv
  | false =>
    cases hf : w.func_ w.calls with
    | ok u => rw [h2 u hx hf] at hv; cases hv
    | error e => rw [h3 e hx hf] at hv; cases hv

/-- Witness of C8, amended: the task `return 42` has type `int`; it is read as
`bool`. -/
theorem getResult_type_safety_witness :
    (∀ v, ((registryOf 42).getResult .bool ⟨0⟩).1 ≠ .ok v) ∧
    ((registryOf 42).getResult .bool ⟨0⟩).1 = .error .bad_any_cast :=
  have h := getResult_type_safety (registryOf 42) .bool .int ⟨0⟩
    (TaskWrapper.new .int (fun (_ : Unit) => returnsInt 42) ()) rfl (by decide)
  ⟨h.1, h.2.2.1 (42 : Int) rfl rfl⟩

/-! ## C9: converting a handle is `getResult` -/

/-- C9.  For every registry, every id (registered or not) and every type `T`,
`getFutureResult<T>(id)` returns a handle and leaves the registry as it is, and
converting that handle gives the outcome and the registry that `getResult<T>(id)`
gives.  For a pending task of type `T` whose callable returns `v`, the conversion
returns `v` and turns `isExecuted(id)` from false to true, and a second conversion
returns `v` again without changing the registry, so without another invocation.  On
the registry of the test (`add` of `return 42`) the conversion returns `42`. -/
theorem handle_conversion_is_getResult :
    (∀ (s : TTaskScheduler) (T : Ty) (id : TaskId),
      s.getFutureResult T id = (.ok ⟨id⟩, s) ∧
      (⟨id⟩ : FutureResult T).operatorT s = s.getResult T id) ∧
    (∀ (s : TTaskScheduler) (T : Ty) (id : TaskId) (w : TaskWrapper T) (v : T.El),
      s.tasks.find id = some ⟨T, w⟩ → w.executed_ = false → w.func_ w.calls = .ok v →
        s.isExecuted id = .ok false ∧
        ((⟨id⟩ : FutureResult T).operatorT s).1 = .ok v ∧
        ((⟨id⟩ : FutureResult T).operatorT s).2.isExecuted id = .ok true ∧
        ((⟨id⟩ : FutureResult T).operatorT s).2.callsOf id = some (w.calls + 1) ∧
        (⟨id⟩ : FutureResult T).operatorT ((⟨id⟩ : FutureResult T).operatorT s).2
          = (.ok v, ((⟨id⟩ : FutureResult T).operatorT s).2)) ∧
    ((registryOf 42).isExecuted ⟨0⟩ = .ok false ∧
      ((⟨⟨0⟩⟩ : FutureResult .int).operatorT (registryOf 42)).1 = .ok (42 : Int) ∧
      ((⟨⟨0⟩⟩ : FutureResult .int).operatorT (registryOf 42)).2.isExecuted ⟨0⟩ = .ok true ∧
      ((⟨⟨0⟩⟩ : FutureResult .int).operatorT
          ((⟨⟨0⟩⟩ : FutureResult .int).operatorT (registryOf 42)).2).1 = .ok (42 : Int) ∧
      ((⟨⟨0⟩⟩ : FutureResult .int).operatorT
          ((⟨⟨0⟩⟩ : FutureResult .int).operatorT (registryOf 42)).2).2.callsOf ⟨0⟩
        = some 1) := by
  refine ⟨fun s T id => ⟨rfl, rfl⟩, ?_, ⟨rfl, rfl, rfl, rfl, rfl⟩⟩
  intro s T id w v hfind hpending hv
  simp only [FutureResult.operatorT]
  have hg := getResult_pending_ok s T T id w v hfind hpending hv
  have hfind1 : (s.getResult T id).2.tasks.find id
      = some ⟨T, { w with calls := w.calls + 1, result_ := v, executed_ := true }⟩ := by
    rw [hg]
    exact find_assign_same _ _ _
  refine ⟨?_, ?_, ?_, ?_, ?_⟩
  · simp [TTaskScheduler.isExecuted, hfind, ITask.isExecuted, TaskWrapper.isExecuted,
      hpending]
  · rw [hg]
    exact any_cast_same T v
  · simp [TTaskScheduler.isExecuted, hfind1, ITask.isExecuted, TaskWrapper.isExecuted]
  · simp [TTaskScheduler.callsOf, hfind1]
  · rw [getResult_done _ T T id _ hfind1 rfl]
    simp only [any_cast_same]

/-! ## C10: identifiers are fresh -/

/-- C10.  For every sequence of calls on a new registry during which the counter
stays within `int` range, the ids returned by its `add` calls are, in call order,
`0, 1, 2, ...`: each is strictly greater than every id returned before it, so they
are pairwise distinct; and in whatever order the map was iterated, the next `add`
returns the number of `add` calls made so far. -/
theorem add_ids_fresh
    (ops : List Op)
    (hrange : (countAdds ops : Int) ≤ INT_MAX) :
    mintedIds TTaskScheduler.new ops
      = (List.range (countAdds ops)).map (fun (k : Nat) => (⟨(k : Int)⟩ : TaskId)) ∧
    (mintedIds TTaskScheduler.new ops).Pairwise (fun a b => a.id_ < b.id_) ∧
    (mintedIds TTaskScheduler.new ops).Nodup ∧
    ∀ (s : TTaskScheduler), Run TTaskScheduler.new ops s →
      ∀ (R : Ty) (f : Nat → Except Exn R.El),
        (s.add R (fun (_ : Unit) => f) ()).1 = ⟨(countAdds ops : Int)⟩ := by
  have heq : mintedIds TTaskScheduler.new ops
      = (List.range (countAdds ops)).map (fun (k : Nat) => (⟨(k : Int)⟩ : TaskId)) := by
    rw [mintedIds_eq ops TTaskScheduler.new (by simp [TTaskScheduler.new])
      (by simpa [TTaskScheduler.new] using hrange)]
    simp [TTaskScheduler.new]
  have hpw : (mintedIds TTaskScheduler.new ops).Pairwise (fun a b => a.id_ < b.id_) := by
    rw [heq, List.pairwise_map]
    exact (List.pairwise_lt_range _).imp (fun h => by simpa using h)
  refine ⟨heq, hpw, ?_, ?_⟩
  · exact hpw.imp (fun h hab => by rw [hab] at h; exact lt_irrefl _ h)
  · intro s hrun R f
    have hb := run_basic hrun (by simp [TTaskScheduler.new, TaskMap.keys])
      (by simp [TTaskScheduler.new]) (by simpa [TTaskScheduler.new] using hrange)
    simp only [TTaskScheduler.add, hb.2, TTaskScheduler.new, zero_add]

/-- Witness of C10: three `add` calls with other calls in between return `0, 1, 2`. -/
theorem add_ids_fresh_witness :
    mintedIds TTaskScheduler.new
      [Op.add .int (returnsInt 10), Op.executeAll, Op.add .int throwsOops,
        Op.getResult .int ⟨1⟩, Op.add .int (returnsInt 20)]
      = [⟨0⟩, ⟨1⟩, ⟨2⟩] :=
  (add_ids_fresh
    [Op.add .int (returnsInt 10), Op.executeAll, Op.add .int throwsOops,
      Op.getResult .int ⟨1⟩, Op.add .int (returnsInt 20)]
    (by simp [countAdds, INT_MAX])).1

/-! ## C11: the registry only grows -/

theorem assign_of_not_mem (m : TaskMap) (id : TaskId) (t : ITask) (h : id ∉ m.keys) :
    m.assign id t = m ++ [(id, t)] := by
  induction m with
  | nil => rfl
  | cons a rest ih =>
    obtain ⟨k, t0⟩ := a
    have hk : ¬ k = id := by
      intro hk
      apply h
      simp [TaskMap.keys, hk]
    have h1 : id ∉ TaskMap.keys rest := by
      intro h1
      apply h
      simp only [TaskMap.keys] at h1
      simp [TaskMap.keys, h1]
    simp [TaskMap.assign, hk, ih h1]

theorem mem_keys_assign (m : TaskMap) (id k : TaskId) (t : ITask) :
    k ∈ (m.assign id t).keys ↔ k ∈ m.keys ∨ k = id := by
  by_cases h : id ∈ m.keys
  · rw [keys_assign_of_mem m id t h]
    constructor
    · intro hk; exact Or.inl hk
    · rintro (hk | hk)
      · exact hk
      · rw [hk]; exact h
  · rw [keys_assign_of_not_mem m id t h]
    simp

theorem applyOp_keys_iff (s : TTaskScheduler) (op : Op) (k : TaskId) :
    k ∈ (applyOp s op).tasks.keys ↔ k ∈ s.tasks.keys ∨ returnedId s op = some k := by
  constructor
  · exact applyOp_keys s op k
  · rintro (h | h)
    · cases op with
      | add R f =>
        simp only [applyOp, TTaskScheduler.add]
        exact (mem_keys_assign _ _ _ _).2 (Or.inl h)
      | executeAll =>
        simpa only [applyOp, TTaskScheduler.executeAll, executeAllLoop_keys] using h
      | getResult T id1 => simpa only [applyOp, getResult_keys] using h
      | isExecuted id1 => exact h
      | getFutureResult T id1 => exact h
      | force T id1 => simpa only [applyOp, FutureResult.operatorT, getResult_keys] using h
    · cases op with
      | add R f =>
        simp only [returnedId, TTaskScheduler.add, Option.some.injEq] at h
        simp only [applyOp, TTaskScheduler.add]
        exact (mem_keys_assign _ _ _ _).2 (Or.inr h.symm)
      | executeAll => simp [returnedId] at h
      | getResult T id1 => simp [returnedId] at h
      | isExecuted id1 => simp [returnedId] at h
      | getFutureResult T id1 => simp [returnedId] at h
      | force T id1 => simp [returnedId] at h

theorem run_keys_iff {s s2 : TTaskScheduler} {ops : List Op} (hrun : Run s ops s2) :
    ∀ k, k ∈ s2.tasks.keys ↔ k ∈ s.tasks.keys ∨ k ∈ mintedIds s ops := by
  induction hrun with
  | done s => intro k; simp [mintedIds]
  | @step s s1 s2 op ops hre _ ih =>
    intro k
    have h1 : k ∈ s1.tasks.keys ↔ k ∈ (applyOp s op).tasks.keys :=
      (hre.1.map Prod.fst).mem_iff
    rw [ih k, h1, applyOp_keys_iff, mintedIds_congr ops (applyOp s op) s1 hre.2]
    simp only [mintedIds, List.mem_append, Option.mem_toList, Option.mem_def]
    tauto

theorem run_nodup {s s2 : TTaskScheduler} {ops : List Op} (hrun : Run s ops s2) :
    s.tasks.keys.Nodup → s2.tasks.keys.Nodup := by
  induction hrun with
  | done s => exact id
  | @step s s1 s2 op ops hre _ ih =>
    intro hn
    exact ih (reorder_nodup _ _ (applyOp_nodup s op hn) hre)

/-- The shape of a registry reached from a new one within `int` range: no key is
repeated, the counter is the number of `add` calls, and the keys are exactly the
ids from `0` up to the counter. -/
theorem run_new_shape {ops : List Op} {s : TTaskScheduler}
    (hrun : Run TTaskScheduler.new ops s) (hrange : (countAdds ops : Int) ≤ INT_MAX) :
    s.tasks.keys.Nodup ∧ s.nextId_ = countAdds ops ∧
      ∀ k : TaskId, k ∈ s.tasks.keys ↔ 0 ≤ k.id_ ∧ k.id_ < s.nextId_ := by
  have hb := run_basic hrun (by simp [TTaskScheduler.new, TaskMap.keys])
    (by simp [TTaskScheduler.new]) (by simpa [TTaskScheduler.new] using hrange)
  simp only [TTaskScheduler.new, zero_add] at hb
  refine ⟨hb.1, hb.2, ?_⟩
  intro k
  rw [run_keys_iff hrun k, mintedIds_eq ops TTaskScheduler.new (by simp [TTaskScheduler.new])
    (by simpa [TTaskScheduler.new] using hrange), hb.2]
  simp only [TTaskScheduler.new, TaskMap.keys, List.map_nil, List.not_mem_nil, false_or,
    zero_add, List.mem_map, List.mem_range]
  constructor
  · rintro ⟨j, hj, rfl⟩
    simp only
    omega
  · rintro ⟨h0, h1⟩
    refine ⟨k.id_.toNat, by omega, ?_⟩
    obtain ⟨n⟩ := k
    simp only [TaskId.mk.injEq]
    simp only at h0
    omega

/-- C11.  In every registry reached from a new one by any calls, the counter staying
within `int` range and the map taking any iteration order, the stored keys are
exactly the ids `0 ≤ k < nextId_`.  So the id `add` returns is not yet a key, the
assignment `tasks[id] = task` appends a new entry and overwrites nothing, and the keys
after `add` are the old keys and the returned id.  `executeAll`, `getResult`,
`isExecuted` and `getFutureResult` leave the keys as they are, whether they succeed or
fail, and no call removes a key. -/
theorem registry_only_grows
    (ops : List Op) (s : TTaskScheduler)
    (hrun : Run TTaskScheduler.new ops s)
    (hrange : (countAdds ops : Int) ≤ INT_MAX) :
    (∀ k : TaskId, k ∈ s.tasks.keys ↔ 0 ≤ k.id_ ∧ k.id_ < s.nextId_) ∧
    (∀ (R : Ty) (f : Nat → Except Exn R.El),
      (s.add R (fun (_ : Unit) => f) ()).1 ∉ s.tasks.keys ∧
      (s.add R (fun (_ : Unit) => f) ()).2.tasks
        = s.tasks ++ [((s.add R (fun (_ : Unit) => f) ()).1,
            ITask.mk R (TaskWrapper.new R (fun (_ : Unit) => f) ()))]) ∧
    (∀ (R : Ty) (f : Nat → Except Exn R.El) (k : TaskId),
      k ∈ (s.add R (fun (_ : Unit) => f) ()).2.tasks.keys
        ↔ k ∈ s.tasks.keys ∨ k = (s.add R (fun (_ : Unit) => f) ()).1) ∧
    s.executeAll.2.tasks.keys = s.tasks.keys ∧
    (∀ (T : Ty) (id : TaskId), (s.getResult T id).2.tasks.keys = s.tasks.keys) ∧
    (∀ (T : Ty) (id : TaskId), (s.getFutureResult T id).2.tasks.keys = s.tasks.keys) ∧
    (∀ id : TaskId, (applyOp s (.isExecuted id)).tasks.keys = s.tasks.keys) ∧
    (∀ (op : Op) (k : TaskId), k ∈ s.tasks.keys → k ∈ (applyOp s op).tasks.keys) := by
  obtain ⟨_, _, hkeys⟩ := run_new_shape hrun hrange
  have hfresh : (⟨s.nextId_⟩ : TaskId) ∉ s.tasks.keys := by
    intro h
    have := ((hkeys _).1 h).2
    exact lt_irrefl _ this
  refine ⟨hkeys, ?_, ?_, ?_, ?_, ?_, ?_, ?_⟩
  · intro R f
    refine ⟨hfresh, ?_⟩
    simp only [TTaskScheduler.add]
    exact assign_of_not_mem _ _ _ hfresh
  · intro R f k
    simp only [TTaskScheduler.add]
    exact mem_keys_assign _ _ _ _
  · simp only [TTaskScheduler.executeAll]
    exact executeAllLoop_keys _
  · intro T id
    exact getResult_keys s T id
  · intro T id
    rfl
  · intro id
    rfl
  · intro op k hk
    exact (applyOp_keys_iff s op k).2 (Or.inl hk)

/-- Witness of C11 on the registry of the test `MultipleTasksIndependent`: its keys
are `0` and `1`, and a third `add` appends the key `2`. -/
theorem registry_only_grows_witness :
    (∀ k : TaskId, k ∈ registry10and20.tasks.keys
      ↔ 0 ≤ k.id_ ∧ k.id_ < registry10and20.nextId_) ∧
    (registry10and20.add .int (fun (_ : Unit) => returnsInt 30) ()).2.tasks
      = registry10and20.tasks ++
          [((registry10and20.add .int (fun (_ : Unit) => returnsInt 30) ()).1,
            ITask.mk .int (TaskWrapper.new .int (fun (_ : Unit) => returnsInt 30) ()))] :=
  have h := registry_only_grows [Op.add .int (returnsInt 10), Op.add .int (returnsInt 20)]
    registry10and20 (run_of_runOps _ _) (by simp [countAdds, INT_MAX])
  ⟨h.1, (h.2.1 .int (returnsInt 30)).2⟩

/-! ## C12: done is terminal -/

/-- C12.  `execute` on a task whose flag is set returns without touching the flag,
the cached result or the invocation count.  So in a registry reached from a new one,
once `isExecuted(id)` is true, after any further calls (the counter staying within
`int` range, the map taking any iteration order) the task stored under `id` is exactly
what it was: `isExecuted(id)` is still true, the callable has not been invoked again,
and `getResult<T>(id)` has for every `T` the outcome it had, and changes nothing. -/
theorem done_is_terminal
    (pre ops : List Op) (s s2 : TTaskScheduler) (id : TaskId)
    (hpre : Run TTaskScheduler.new pre s)
    (hrange : (countAdds pre : Int) + countAdds ops ≤ INT_MAX)
    (hx : s.isExecuted id = .ok true)
    (hrun : Run s ops s2) :
    (∀ (R : Ty) (w : TaskWrapper R), w.executed_ = true → w.execute = (.ok (), w)) ∧
    s2.tasks.find id = s.tasks.find id ∧
    s2.isExecuted id = .ok true ∧
    s2.callsOf id = s.callsOf id ∧
    ∀ T : Ty, (s2.getResult T id).1 = (s.getResult T id).1 ∧ (s2.getResult T id).2 = s2 := by
  obtain ⟨hnod, hnext, hkeys⟩ := run_new_shape hpre (by omega)
  cases hfind : s.tasks.find id with
  | none => simp [TTaskScheduler.isExecuted, hfind] at hx
  | some t =>
    have htx : t.isExecuted = true := by
      simpa [TTaskScheduler.isExecuted, hfind] using hx
    have hmem : id ∈ s.tasks.keys := by
      by_contra hc
      rw [(find_eq_none_iff s.tasks id).2 hc] at hfind
      cases hfind
    have hlt := ((hkeys id).1 hmem).2
    obtain ⟨t2, hfind2, ht2⟩ := run_find_evolves (fun t1 => t1 = t)
      (fun t1 h1 => by rw [h1, task_execute_done t htx]) id hrun hnod
      (by rw [hnext]; omega) hlt (by rw [hnext]; omega) ⟨t, hfind, rfl⟩
    subst ht2
    refine ⟨fun R w hw => wrapper_execute_done w hw, hfind2, ?_, ?_, ?_⟩
    · simp [TTaskScheduler.isExecuted, hfind2, htx]
    · simp [TTaskScheduler.callsOf, hfind2, hfind]
    · intro T
      refine ⟨?_, getResult_done_state s2 T id t2 hfind2 htx⟩
      rw [getResult_known s2 T id t2 hfind2, getResult_known s T id t2 hfind]

/-- Witness of C12: `return 100` is registered and executed by `executeAll`; then a
second task is registered, read with the wrong type, and `executeAll` runs again. -/
theorem done_is_terminal_witness :
    (runOps (runOps TTaskScheduler.new [Op.add .int (returnsInt 100), Op.executeAll])
        [Op.add .int throwsOops, Op.getResult .bool ⟨0⟩, Op.executeAll]).isExecuted ⟨0⟩
      = .ok true ∧
    (runOps (runOps TTaskScheduler.new [Op.add .int (returnsInt 100), Op.executeAll])
        [Op.add .int throwsOops, Op.getResult .bool ⟨0⟩, Op.executeAll]).callsOf ⟨0⟩
      = (runOps TTaskScheduler.new [Op.add .int (returnsInt 100), Op.executeAll]).callsOf ⟨0⟩ :=
  have h := done_is_terminal [Op.add .int (returnsInt 100), Op.executeAll]
    [Op.add .int throwsOops, Op.getResult .bool ⟨0⟩, Op.executeAll]
    (runOps TTaskScheduler.new [Op.add .int (returnsInt 100), Op.executeAll])
    (runOps (runOps TTaskScheduler.new [Op.add .int (returnsInt 100), Op.executeAll])
      [Op.add .int throwsOops, Op.getResult .bool ⟨0⟩, Op.executeAll])
    ⟨0⟩ (run_of_runOps _ _) (by simp [countAdds, INT_MAX]) rfl (run_of_runOps _ _)
  ⟨h.2.2.1, h.2.2.2.1⟩

/-! ## C13: `executeAll` and a raising callable -/

theorem find_append (a b : TaskMap) (id : TaskId) :
    TaskMap.find (a ++ b) id = (match a.find id with
      | some t => some t
      | none => b.find id) := by
  induction a with
  | nil => rfl
  | cons x rest ih =>
    obtain ⟨k, t⟩ := x
    by_cases hk : k = id
    · simp [TaskMap.find, hk]
    · simpa [TaskMap.find, hk] using ih

theorem mem_of_find (m : TaskMap) (id : TaskId) (t : ITask) (h : m.find id = some t) :
    (id, t) ∈ m := by
  induction m with
  | nil => simp [TaskMap.find] at h
  | cons x rest ih =>
    obtain ⟨k, t0⟩ := x
    by_cases hk : k = id
    · simp only [TaskMap.find, hk, if_true, Option.some.injEq] at h
      rw [hk, h]
      exact List.mem_cons_self _ _
    · simp only [TaskMap.find, hk, if_false] at h
      exact List.mem_cons_of_mem _ (ih h)

theorem task_execute_ok (R : Ty) (w : TaskWrapper R) (v : R.El)
    (h : w.executed_ = false) (hv : w.func_ w.calls = .ok v) :
    (ITask.mk R w).execute =
      (.ok (), ⟨R, { w with calls := w.calls + 1, result_ := v, executed_ := true }⟩) := by
  simp [ITask.execute, wrapper_execute_ok w v h hv]

theorem task_execute_error (R : Ty) (w : TaskWrapper R) (e : Exn)
    (h : w.executed_ = false) (hv : w.func_ w.calls = .error e) :
    (ITask.mk R w).execute = (.error e, ⟨R, { w with calls := w.calls + 1 }⟩) := by
  simp [ITask.execute, wrapper_execute_error w e h hv]

theorem task_execute_fst_ok (t : ITask)
    (h : t.isExecuted = true ∨ ∃ v, t.w.func_ t.w.calls = .ok v) : t.execute.1 = .ok () := by
  obtain ⟨R, w⟩ := t
  cases hx : w.executed_ with
  | true =>
    have hx1 : (ITask.mk R w).isExecuted = true := hx
    rw [task_execute_done _ hx1]
  | false =>
    rcases h with h | ⟨v, hv⟩
    · simp [ITask.isExecuted, TaskWrapper.isExecuted, hx] at h
    · rw [task_execute_ok R w v hx hv]

theorem executeAllLoop_error (pre post : TaskMap) (k : TaskId) (t : ITask) (e : Exn)
    (hpre : ∀ x ∈ pre, x.2.execute.1 = .ok ())
    (hpending : t.isExecuted = false) (he : t.execute.1 = .error e) :
    TTaskScheduler.executeAllLoop (pre ++ (k, t) :: post)
      = (.error e, pre.map (fun x => (x.1, x.2.execute.2)) ++ (k, t.execute.2) :: post) := by
  induction pre with
  | nil =>
    cases hr : t.execute with
    | mk r t1 =>
      rw [hr] at he
      simp only at he
      subst he
      simp [TTaskScheduler.executeAllLoop, hpending, hr]
  | cons x rest ih =>
    obtain ⟨k0, t0⟩ := x
    have hrest := ih (fun y hy => hpre y (List.mem_cons_of_mem _ hy))
    have h0 : t0.execute.1 = .ok () := hpre (k0, t0) (List.mem_cons_self _ _)
    cases hx : t0.isExecuted with
    | true =>
      simp [TTaskScheduler.executeAllLoop, hx, hrest, task_execute_done t0 hx]
    | false =>
      cases hr : t0.execute with
      | mk r t1 =>
        rw [hr] at h0
        simp only at h0
        subst h0
        simp [TTaskScheduler.executeAllLoop, hx, hr, hrest]

/-- C13.  Let the loop of `executeAll` reach a pending task `k` whose callable raises
`e`: the entries iterated before it (`pre`) are executed already or have callables
that return.  Then `executeAll` fails with exactly `e`; the task `k` is left not
executed, in the very state a `getResult<T>(k)` leaves it in; every other task is
either exactly as before or executed with its own callable's value cached; a task that
was executed before the call is exactly as before; the counter is unchanged. -/
theorem executeAll_propagates_error
    (s : TTaskScheduler) (pre post : TaskMap) (k : TaskId) (R : Ty) (w : TaskWrapper R)
    (e : Exn)
    (hnodup : s.tasks.keys.Nodup)
    (hsplit : s.tasks = pre ++ (k, ITask.mk R w) :: post)
    (hpre : ∀ x ∈ pre, x.2.isExecuted = true ∨ ∃ v, x.2.w.func_ x.2.w.calls = .ok v)
    (hpending : w.executed_ = false)
    (he : w.func_ w.calls = .error e) :
    s.executeAll.1 = .error e ∧
    s.executeAll.2.tasks.find k = some ⟨R, { w with calls := w.calls + 1 }⟩ ∧
    s.executeAll.2.isExecuted k = .ok false ∧
    (∀ T : Ty, (s.getResult T k).1 = .error e ∧
      (s.getResult T k).2.tasks.find k = s.executeAll.2.tasks.find k) ∧
    (∀ (k1 : TaskId) (t1 : ITask), k1 ≠ k → s.tasks.find k1 = some t1 →
      s.executeAll.2.tasks.find k1 = some t1 ∨
      (t1.w.executed_ = false ∧ ∃ v, t1.w.func_ t1.w.calls = .ok v ∧
        s.executeAll.2.tasks.find k1 = some ⟨t1.R,
          { t1.w with calls := t1.w.calls + 1, result_ := v, executed_ := true }⟩)) ∧
    (∀ (k1 : TaskId) (t1 : ITask), s.tasks.find k1 = some t1 → t1.w.executed_ = true →
      s.executeAll.2.tasks.find k1 = some t1) ∧
    s.executeAll.2.nextId_ = s.nextId_ := by
  have hexec := task_execute_error R w e hpending he
  have hloop := executeAllLoop_error pre post k (ITask.mk R w) e
    (fun x hx => task_execute_fst_ok x.2 (hpre x hx)) hpending (by rw [hexec])
  rw [hexec] at hloop
  have hnotin : k ∉ TaskMap.keys pre := by
    intro hk
    rw [hsplit] at hnodup
    simp only [TaskMap.keys, List.map_append, List.map_cons] at hnodup
    exact List.disjoint_left.1 (List.nodup_append.1 hnodup).2.2 hk (List.mem_cons_self _ _)
  have hprek : TaskMap.find pre k = none := (find_eq_none_iff pre k).2 hnotin
  have hfindk : s.tasks.find k = some ⟨R, w⟩ := by
    rw [hsplit, find_append, hprek]
    simp [TaskMap.find]
  have hafter : s.executeAll.2.tasks
      = pre.map (fun x => (x.1, x.2.execute.2))
          ++ (k, ITask.mk R { w with calls := w.calls + 1 }) :: post := by
    simp only [TTaskScheduler.executeAll, hsplit, hloop]
  have hfindk2 : s.executeAll.2.tasks.find k = some ⟨R, { w with calls := w.calls + 1 }⟩ := by
    rw [hafter, find_append, find_map_execute, hprek]
    simp [TaskMap.find]
  have hother : ∀ (k1 : TaskId) (t1 : ITask), k1 ≠ k → s.tasks.find k1 = some t1 →
      s.executeAll.2.tasks.find k1 = some t1 ∨
      (t1.w.executed_ = false ∧ ∃ v, t1.w.func_ t1.w.calls = .ok v ∧
        s.executeAll.2.tasks.find k1 = some ⟨t1.R,
          { t1.w with calls := t1.w.calls + 1, result_ := v, executed_ := true }⟩) := by
    intro k1 t1 hne h1
    have hne1 : ¬ k = k1 := fun h => hne h.symm
    rw [hsplit, find_append] at h1
    rw [hafter, find_append, find_map_execute]
    cases hp : TaskMap.find pre k1 with
    | none =>
      left
      rw [hp] at h1
      simpa [TaskMap.find, hne1] using h1
    | some t0 =>
      rw [hp] at h1
      simp only [Option.some.injEq] at h1
      subst h1
      have hmem := mem_of_find pre k1 t0 hp
      obtain ⟨R0, w0⟩ := t0
      cases hx : w0.executed_ with
      | true =>
        left
        have hx1 : (ITask.mk R0 w0).isExecuted = true := hx
        simp [task_execute_done _ hx1]
      | false =>
        right
        rcases hpre _ hmem with h | ⟨v, hv⟩
        · simp [ITask.isExecuted, TaskWrapper.isExecuted, hx] at h
        · refine ⟨rfl, v, hv, ?_⟩
          simp [task_execute_ok R0 w0 v hx hv]
  refine ⟨?_, hfindk2, ?_, ?_, hother, ?_, rfl⟩
  · simp only [TTaskScheduler.executeAll, hsplit, hloop]
  · simp [TTaskScheduler.isExecuted, hfindk2, ITask.isExecuted, TaskWrapper.isExecuted,
      hpending]
  · intro T
    rw [getResult_pending_error s T R k w e hfindk hpending he, hfindk2]
    exact ⟨rfl, find_assign_same _ _ _⟩
  · intro k1 t1 h1 hx
    have hne : k1 ≠ k := by
      intro hk
      rw [hk, hfindk] at h1
      simp only [Option.some.injEq] at h1
      rw [← h1] at hx
      simp [hpending] at hx
    rcases hother k1 t1 hne h1 with h | ⟨hp, _⟩
    · exact h
    · rw [hx] at hp
      cases hp

/-- Witness of C13: of three pending tasks the second throws
`std::runtime_error("oops")`; `executeAll` fails with it and leaves that task not
executed. -/
theorem executeAll_propagates_error_witness :
    registry10OopsAnd20.executeAll.1 = .error (.runtime_error "oops") ∧
    registry10OopsAnd20.executeAll.2.isExecuted ⟨1⟩ = .ok false ∧
    (∀ T : Ty, (registry10OopsAnd20.getResult T ⟨1⟩).1 = .error (.runtime_error "oops") ∧
      (registry10OopsAnd20.getResult T ⟨1⟩).2.tasks.find ⟨1⟩
        = registry10OopsAnd20.executeAll.2.tasks.find ⟨1⟩) :=
  have h := executeAll_propagates_error registry10OopsAnd20
    [(⟨0⟩, ITask.mk .int (TaskWrapper.new .int (fun (_ : Unit) => returnsInt 10) ()))]
    [(⟨2⟩, ITask.mk .int (TaskWrapper.new .int (fun (_ : Unit) => returnsInt 20) ()))]
    ⟨1⟩ .int (TaskWrapper.new .int (fun (_ : Unit) => throwsOops) ())
    (.runtime_error "oops") (by decide) rfl
    (by
      intro x hx
      simp only [List.mem_singleton] at hx
      subst hx
      exact Or.inr ⟨(10 : Int), rfl⟩)
    rfl rfl
  ⟨h.1, h.2.2.1, h.2.2.2.1⟩

/-! ## C14: the queries execute nothing -/

/-- C14.  For every registry and every id, `getFutureResult<T>(id)` returns a handle
and the registry it was given, and `isExecuted(id)`, a `const` member, leaves the
registry as it is: tasks with their flags, cached results and invocation counts,
keys and counter are all unchanged.  On a registered id `isExecuted` returns the
task's flag.  Any sequence of such queries leaves the registry unchanged. -/
theorem read_only_calls_change_nothing (s : TTaskScheduler) (T : Ty) (id : TaskId) :
    s.getFutureResult T id = (.ok ⟨id⟩, s) ∧
    applyOp s (.getFutureResult T id) = s ∧
    applyOp s (.isExecuted id) = s ∧
    (∀ t : ITask, s.tasks.find id = some t → s.isExecuted id = .ok t.w.executed_) ∧
    (∀ ops : List Op, (∀ op ∈ ops, Op.isReadOnly op = true) → runOps s ops = s) := by
  refine ⟨rfl, rfl, rfl, ?_, ?_⟩
  · intro t ht
    simp [TTaskScheduler.isExecuted, ht, ITask.isExecuted, TaskWrapper.isExecuted]
  · intro ops
    induction ops with
    | nil => intro _; rfl
    | cons op rest ih =>
      intro h
      have hop : applyOp s op = s := by
        have h1 := h op (List.mem_cons_self _ _)
        cases op with
        | add R f => simp [Op.isReadOnly] at h1
        | executeAll => simp [Op.isReadOnly] at h1
        | getResult T1 id1 => simp [Op.isReadOnly] at h1
        | isExecuted id1 => rfl
        | getFutureResult T1 id1 => rfl
        | force T1 id1 => simp [Op.isReadOnly] at h1
      simp only [runOps, hop]
      exact ih (fun o ho => h o (List.mem_cons_of_mem _ ho))

/-! ## C15: a read with the wrong type still executes the task -/

/-- C15.  For a registered task of result type `R` that has not been executed and
whose callable returns `v` when invoked, `getResult<T>(id)` with `T` different from
`R` fails with `std::bad_any_cast`, yet the task has been executed: afterwards
`isExecuted(id)` is true, the callable has been invoked once more (once, for a task not
invoked before), and `getResult<R>(id)` returns `v` and changes nothing, so it does not
invoke the callable again. -/
theorem mismatched_read_executes
    (s : TTaskScheduler) (T R : Ty) (id : TaskId) (w : TaskWrapper R) (v : R.El)
    (hfind : s.tasks.find id = some ⟨R, w⟩)
    (hpending : w.executed_ = false)
    (hv : w.func_ w.calls = .ok v)
    (hne : T ≠ R) :
    (s.getResult T id).1 = .error .bad_any_cast ∧
    (s.getResult T id).2.isExecuted id = .ok true ∧
    (s.getResult T id).2.callsOf id = some (w.calls + 1) ∧
    (s.getResult T id).2.getResult R id = (.ok v, (s.getResult T id).2) := by
  have hg := getResult_pending_ok s T R id w v hfind hpending hv
  have hfind1 : (s.getResult T id).2.tasks.find id
      = some ⟨R, { w with calls := w.calls + 1, result_ := v, executed_ := true }⟩ := by
    rw [hg]
    exact find_assign_same _ _ _
  refine ⟨?_, ?_, ?_, ?_⟩
  · rw [hg]
    exact any_cast_ne T R v hne
  · simp [TTaskScheduler.isExecuted, hfind1, ITask.isExecuted, TaskWrapper.isExecuted]
  · simp [TTaskScheduler.callsOf, hfind1]
  · rw [getResult_done _ R R id _ hfind1 rfl]
    simp only [any_cast_same]

/-- Witness of C15: the task `return 42` of type `int` is read as `bool`, then as
`int`. -/
theorem mismatched_read_executes_witness :
    ((registryOf 42).getResult .bool ⟨0⟩).1 = .error .bad_any_cast ∧
    ((registryOf 42).getResult .bool ⟨0⟩).2.isExecuted ⟨0⟩ = .ok true ∧
    ((registryOf 42).getResult .bool ⟨0⟩).2.callsOf ⟨0⟩ = some 1 ∧
    ((registryOf 42).getResult .bool ⟨0⟩).2.getResult .int ⟨0⟩
      = (.ok (42 : Int), ((registryOf 42).getResult .bool ⟨0⟩).2) :=
  mismatched_read_executes (registryOf 42) .bool .int ⟨0⟩
    (TaskWrapper.new .int (fun (_ : Unit) => returnsInt 42) ()) (42 : Int)
    rfl rfl rfl (by decide)

/-! ## C17: `executeAll` is idempotent -/

theorem executeAllLoop_done (m : TaskMap) (h : ∀ x ∈ m, x.2.isExecuted = true) :
    TTaskScheduler.executeAllLoop m = (.ok (), m) := by
  induction m with
  | nil => rfl
  | cons a rest ih =>
    obtain ⟨k, t⟩ := a
    have hrest := ih (fun x hx => h x (List.mem_cons_of_mem _ hx))
    have ht : t.isExecuted = true := h (k, t) (List.mem_cons_self _ _)
    simp [TTaskScheduler.executeAllLoop, ht, hrest]

theorem task_execute_snd_done (t : ITask)
    (h : t.isExecuted = true ∨ ∃ v, t.w.func_ t.w.calls = .ok v) :
    t.execute.2.isExecuted = true := by
  obtain ⟨R, w⟩ := t
  cases hx : w.executed_ with
  | true =>
    have hx1 : (ITask.mk R w).isExecuted = true := hx
    rw [task_execute_done _ hx1]
    exact hx1
  | false =>
    rcases h with h | ⟨v, hv⟩
    · simp [ITask.isExecuted, TaskWrapper.isExecuted, hx] at h
    · rw [task_execute_ok R w v hx hv]
      rfl

/-- C17.  On a registry whose pending callables return when invoked, `executeAll`
succeeds and leaves every task executed, and a second `executeAll` succeeds and
returns the registry exactly as the first left it, invocation counts included.  On
every registry in which every task is already executed, and on a new registry,
`executeAll` succeeds and changes nothing. -/
theorem executeAll_idempotent
    (s : TTaskScheduler)
    (hno : ∀ x ∈ s.tasks, x.2.isExecuted = false → ∃ v, x.2.w.func_ x.2.w.calls = .ok v) :
    s.executeAll.1 = .ok () ∧
    (∀ x ∈ s.executeAll.2.tasks, x.2.isExecuted = true) ∧
    s.executeAll.2.executeAll = (.ok (), s.executeAll.2) ∧
    (∀ s1 : TTaskScheduler, (∀ x ∈ s1.tasks, x.2.isExecuted = true) →
      s1.executeAll = (.ok (), s1)) ∧
    TTaskScheduler.new.executeAll = (.ok (), TTaskScheduler.new) := by
  have hcases : ∀ x ∈ s.tasks, x.2.isExecuted = true ∨ ∃ v, x.2.w.func_ x.2.w.calls = .ok v := by
    intro x hx
    cases hb : x.2.isExecuted with
    | true => exact Or.inl rfl
    | false => exact Or.inr (hno x hx hb)
  have hloop := executeAllLoop_ok s.tasks (fun x hx => task_execute_fst_ok x.2 (hcases x hx))
  have hall : ∀ x ∈ s.executeAll.2.tasks, x.2.isExecuted = true := by
    intro x hx
    simp only [TTaskScheduler.executeAll, hloop, List.mem_map] at hx
    obtain ⟨y, hy, rfl⟩ := hx
    exact task_execute_snd_done y.2 (hcases y hy)
  have hdone : ∀ s1 : TTaskScheduler, (∀ x ∈ s1.tasks, x.2.isExecuted = true) →
      s1.executeAll = (.ok (), s1) := by
    intro s1 h1
    simp only [TTaskScheduler.executeAll, executeAllLoop_done s1.tasks h1]
  exact ⟨by simp only [TTaskScheduler.executeAll, hloop], hall, hdone _ hall, hdone, rfl⟩

/-- Witness of C17 on the registry of the test `MultipleTasksIndependent`. -/
theorem executeAll_idempotent_witness :
    registry10and20.executeAll.1 = .ok () ∧
    registry10and20.executeAll.2.executeAll = (.ok (), registry10and20.executeAll.2) :=
  have h := executeAll_idempotent registry10and20
    (by
      intro x hx _
      have htasks : registry10and20.tasks
          = [(⟨0⟩, ITask.mk .int (TaskWrapper.new .int (fun (_ : Unit) => returnsInt 10) ())),
             (⟨1⟩, ITask.mk .int (TaskWrapper.new .int (fun (_ : Unit) => returnsInt 20) ()))] :=
        rfl
      rw [htasks] at hx
      simp only [List.mem_cons, List.mem_singleton, List.not_mem_nil, or_false] at hx
      rcases hx with h | h
      · rw [h]; exact ⟨(10 : Int), rfl⟩
      · rw [h]; exact ⟨(20 : Int), rfl⟩)
  ⟨h.1, h.2.2.1⟩

/-! ## C16: tasks are independent, but for bound handles -/

theorem getResultH_unknown (fuel : Nat) (s : TTaskSchedulerH) (T : Ty) (id : TaskId)
    (h : s.tasks.find id = none) :
    s.getResult (fuel + 1) T id = some (.error (.runtime_error "Task not found"), s) := by
  simp [TTaskSchedulerH.getResult, h]

theorem getResultH_done (fuel : Nat) (s : TTaskSchedulerH) (T R : Ty) (id : TaskId)
    (w : TaskWrapperH R) (h : s.tasks.find id = some ⟨R, w⟩) (hx : w.executed_ = true) :
    s.getResult (fuel + 1) T id = some (any_cast T ⟨R, w.result_⟩, s) := by
  simp [TTaskSchedulerH.getResult, h, TaskWrapperH.getResult, hx]

theorem getResultH_plain_ok (fuel : Nat) (s : TTaskSchedulerH) (T R : Ty) (id : TaskId)
    (w : TaskWrapperH R) (f : Nat → Except Exn R.El) (v : R.El)
    (h : s.tasks.find id = some ⟨R, w⟩) (hx : w.executed_ = false)
    (hf : w.func_ = .plain f) (hv : f w.calls = .ok v) :
    s.getResult (fuel + 1) T id =
      some (any_cast T ⟨R, v⟩,
        { s with
          tasks := (s.tasks.assign id ⟨R, { w with calls := w.calls + 1 }⟩).assign id
            ⟨R, { w with calls := w.calls + 1, result_ := v, executed_ := true }⟩ }) := by
  simp [TTaskSchedulerH.getResult, h, TaskWrapperH.getResult, TaskWrapperH.execute, hx, hf,
    ClosureH.invoke, hv]

theorem getResultH_plain_error (fuel : Nat) (s : TTaskSchedulerH) (T R : Ty) (id : TaskId)
    (w : TaskWrapperH R) (f : Nat → Except Exn R.El) (e : Exn)
    (h : s.tasks.find id = some ⟨R, w⟩) (hx : w.executed_ = false)
    (hf : w.func_ = .plain f) (hv : f w.calls = .error e) :
    s.getResult (fuel + 1) T id =
      some (.error e,
        { s with tasks := s.tasks.assign id ⟨R, { w with calls := w.calls + 1 }⟩ }) := by
  simp [TTaskSchedulerH.getResult, h, TaskWrapperH.getResult, TaskWrapperH.execute, hx, hf,
    ClosureH.invoke, hv]

theorem findH_toH (m : TaskMap) (id : TaskId) :
    TaskMapH.find (m.map (fun e => (e.1, e.2.toH))) id = (m.find id).map ITask.toH := by
  induction m with
  | nil => rfl
  | cons a rest ih =>
    obtain ⟨k, t⟩ := a
    by_cases hk : k = id
    · simp [TaskMapH.find, TaskMap.find, hk]
    · simpa [TaskMapH.find, TaskMap.find, hk] using ih

theorem assignH_toH (m : TaskMap) (id : TaskId) (t : ITask) :
    (m.assign id t).map (fun e => (e.1, e.2.toH))
      = TaskMapH.assign (m.map (fun e => (e.1, e.2.toH))) id t.toH := by
  induction m with
  | nil => rfl
  | cons a rest ih =>
    obtain ⟨k, t0⟩ := a
    by_cases hk : k = id
    · simp [TaskMapH.assign, TaskMap.assign, hk]
    · simp [TaskMapH.assign, TaskMap.assign, hk, ih]

theorem assignH_assign (m : TaskMapH) (id : TaskId) (a b : ITaskH) :
    (m.assign id a).assign id b = m.assign id b := by
  induction m with
  | nil => simp [TaskMapH.assign]
  | cons x rest ih =>
    obtain ⟨k, t0⟩ := x
    by_cases hk : k = id
    · simp [TaskMapH.assign, hk]
    · simp [TaskMapH.assign, hk, ih]

/-- The two embeddings agree where no closure is bound to a handle: on such a registry
`getResult<T>(id)` of this section returns, with any fuel, and gives the outcome and
the registry that `getResult<T>(id)` of the first embedding gives; `add` agrees too. -/
theorem getResultH_toH (fuel : Nat) (s : TTaskScheduler) (T : Ty) (id : TaskId) :
    s.toH.getResult (fuel + 1) T id = some ((s.getResult T id).1, (s.getResult T id).2.toH) ∧
    ∀ (R : Ty) (f : Nat → Except Exn R.El),
      s.toH.add R (.plain f)
        = ((s.add R (fun (_ : Unit) => f) ()).1, (s.add R (fun (_ : Unit) => f) ()).2.toH) := by
  constructor
  · cases hfind : s.tasks.find id with
    | none =>
      have hH : s.toH.tasks.find id = none := by
        simp only [TTaskScheduler.toH]
        rw [findH_toH, hfind]
        rfl
      rw [getResultH_unknown fuel s.toH T id hH, getResult_unknown s T id hfind]
    | some t =>
      obtain ⟨R, w⟩ := t
      have hH : s.toH.tasks.find id = some (ITask.mk R w).toH := by
        simp only [TTaskScheduler.toH]
        rw [findH_toH, hfind]
        rfl
      cases hx : w.executed_ with
      | true =>
        rw [getResultH_done fuel s.toH T R id _ hH hx, getResult_done s T R id w hfind hx]
      | false =>
        cases hv : w.func_ w.calls with
        | ok v =>
          rw [getResultH_plain_ok fuel s.toH T R id _ w.func_ v hH hx rfl hv,
            getResult_pending_ok s T R id w v hfind hx hv]
          simp only [TTaskScheduler.toH, assignH_assign, assignH_toH]
          rfl
        | error e =>
          rw [getResultH_plain_error fuel s.toH T R id _ w.func_ e hH hx rfl hv,
            getResult_pending_error s T R id w e hfind hx hv]
          simp only [TTaskScheduler.toH, assignH_toH]
          rfl
  · intro R f
    simp only [TTaskScheduler.toH, TTaskSchedulerH.add, TTaskScheduler.add, assignH_toH]
    rfl

end TaskScheduler
